import Mathlib

/-!
Verification of the indoor-navigation core: a shallow embedding of the
graph builder (`src/services/graphGenerator.ts`), the geometry kernel
(`src/utils/geometry.ts`), and the Dijkstra path solver plus route
materializer (the `useGraph` hook), together with proofs of the claimed
properties.

Modelling conventions:
- JavaScript numbers are modelled by `ℚ`.  Comparisons of the form
  `Math.hypot dx dy < EPSILON` are modelled by the equivalent squared
  comparison `dx^2 + dy^2 < EPSILON^2` (both sides are nonnegative, so the
  comparisons agree over the reals); likewise the farthest-pair search in
  `findSharedEdge` compares squared distances, which selects the same pair.
- The collinearity test compares `|cross| < EPSILON * (d1 + d2)` where
  `d1`, `d2` are square roots; the test is decided exactly over `ℚ` by the
  algebraic equivalence spelled out at `ltEpsMulSqrtSum`.
- The library distance functions `getEuclideanDistance` (Math.hypot) and
  `getHaversineDistance` (trigonometric) return irrational values, so the
  builder and the route materializer are parameterized by the distance
  function `dist : Point → Point → ℚ`; concrete fixtures keep all distance
  calls axis-aligned so the rational stand-in `qdist` agrees exactly with
  the Euclidean metric on every pair actually used.
- JavaScript `Map`/`Set`/`Record` are modelled by insertion-ordered lists
  and by total functions defaulting to the JS "absent" value; `Map.set`
  overwriting is modelled by a fold that keeps the last binding.
- JS falsiness of the empty string is modelled explicitly (`"" || null`).
-/

namespace IndoorNav

/- Rational arithmetic is marked irreducible in the library; concrete
fixtures below are checked by kernel evaluation, which needs it unfolded. -/
attribute [local semireducible] Rat.add Rat.mul Rat.sub Rat.inv Rat.ofScientific

/-! ## Data model (src/types.ts) -/

structure Point where
  x : ℚ
  y : ℚ
deriving DecidableEq, Repr

abbrev Polygon := List Point

inductive UnitType where
  | CLASSROOM
  | CORRIDOR
  | ELEVATOR
  | STAIRS
  | OFFICE
  | RESTRICTED
  | ENTRANCE
  | RESTAURANT
deriving DecidableEq, Repr

/-- A campus unit; fields never consulted by the graph pipeline
(`name`, `datasetId`) are omitted.  `accessible` is optional in the source
and ignored by `generateNavigationGraph`. -/
structure Unit where
  id : String
  type : UnitType
  levelId : String
  polygon : Polygon
  accessible : Option Bool
  verticalConnectorId : Option String
deriving DecidableEq, Repr

/-- A level; only `id` and `zIndex` are consulted by the pipeline. -/
structure Level where
  id : String
  zIndex : ℚ
deriving DecidableEq, Repr

structure CampusData where
  units : List Unit
  levels : List Level
deriving DecidableEq, Repr

inductive NodeType where
  | center
  | waypoint
deriving DecidableEq, Repr

inductive EdgeType where
  | horizontal
  | vertical
deriving DecidableEq, Repr

structure NavGraphNode where
  id : String
  type : NodeType
  point : Point
  levelId : String
  originalUnitId : String
  unitType : Option UnitType
deriving DecidableEq, Repr

/-- An adjacency-list entry; `from` and `to` are Lean tokens, hence
`from'` and `to'`. -/
structure NavGraphEdge where
  from' : String
  to' : String
  weight : ℚ
  type : EdgeType
deriving DecidableEq, Repr

/-- `edges` models the JS `Record<string, NavGraphEdge[]>` as a total
function returning `[]` for absent keys. -/
structure NavigationGraph where
  nodes : List NavGraphNode
  edges : String → List NavGraphEdge

inductive AccessibilityFilter where
  | NONE
  | ELEVATOR_ONLY
deriving DecidableEq, Repr

structure Waypoint where
  point : Point
  levelId : String
deriving DecidableEq, Repr

/-! ## Geometry kernel (src/utils/geometry.ts) -/

/-- EPSILON from src/utils/geometry.ts: 1e-6. -/
def EPSILON : ℚ := 1 / 1000000

/-- Squared Euclidean distance; used to decide `Math.hypot dx dy < c`
comparisons exactly as `sqDist < c^2`. -/
def sqDist (p q : Point) : ℚ :=
  (p.x - q.x) ^ 2 + (p.y - q.y) ^ 2

/-- Models `Math.hypot(p.x - q.x, p.y - q.y) < EPSILON`. -/
def closePoints (p q : Point) : Bool :=
  sqDist p q < EPSILON ^ 2

/-- `isPointOnSegment` from the source, verbatim (pure polynomial
arithmetic, no square roots). -/
def isPointOnSegment (p a b : Point) : Bool :=
  let crossProduct := (p.y - a.y) * (b.x - a.x) - (p.x - a.x) * (b.y - a.y)
  if |crossProduct| > EPSILON then false
  else
    let dotProduct := (p.x - a.x) * (b.x - a.x) + (p.y - a.y) * (b.y - a.y)
    if dotProduct < 0 then false
    else
      let squaredLength := (b.x - a.x) ^ 2 + (b.y - a.y) ^ 2
      if dotProduct > squaredLength then false
      else true

/-- Decides `|c| < EPSILON * (Real.sqrt a + Real.sqrt b)` for `a b ≥ 0`,
exactly, over `ℚ`: squaring the (nonnegative) sides, the inequality is
`c^2 - ε^2*(a+b) < 2*ε^2*sqrt (a*b)`, which holds iff the left side is
negative or its square is below `4*ε^4*a*b`. -/
def ltEpsMulSqrtSum (c a b : ℚ) : Bool :=
  let L := c ^ 2 - EPSILON ^ 2 * (a + b)
  L < 0 || L ^ 2 < 4 * EPSILON ^ 4 * (a * b)

/-- `areCollinear` from the source: `|cross| < EPSILON * (dist1 + dist2)`
with `dist1`, `dist2` the segment lengths, decided exactly via
`ltEpsMulSqrtSum`. -/
def areCollinear (p1 p2 p3 : Point) : Bool :=
  let crossProduct := (p2.y - p1.y) * (p3.x - p2.x) - (p2.x - p1.x) * (p3.y - p2.y)
  ltEpsMulSqrtSum crossProduct (sqDist p1 p2) (sqDist p2 p3)

/-- The cyclic edge list of a polygon: `(poly[i], poly[(i+1) % n])`. -/
def edgesOf (poly : Polygon) : List (Point × Point) :=
  match poly with
  | [] => []
  | p :: ps => poly.zip (ps ++ [p])

/-- Key used to deduplicate overlap points, modelling
`p.x.toFixed(6)` string keys by rounding to six decimals. -/
def pointKey (p : Point) : Int × Int :=
  (round (p.x * 1000000), round (p.y * 1000000))

/-- First-occurrence deduplication by `pointKey`, as the JS
`Set`-of-keys filter does. -/
def dedupPoints (ps : List Point) : List Point :=
  (ps.foldl
    (fun (acc : List Point × List (Int × Int)) p =>
      if (pointKey p) ∈ acc.2 then acc else (acc.1 ++ [p], acc.2 ++ [pointKey p]))
    ([], [])).1

/-- The farthest-pair scan over `uniquePoints` (indices k < l, first
strict maximum wins), comparing squared distances; the JS running
`maxDist` starts at `-1`. -/
def farthestAux (p : Point) (rest : List Point)
    (best : ℚ × Option (Point × Point)) : ℚ × Option (Point × Point) :=
  rest.foldl
    (fun b q => if sqDist p q > b.1 then (sqDist p q, some (p, q)) else b) best

def farthestPairGo : List Point → ℚ × Option (Point × Point) → ℚ × Option (Point × Point)
  | [], best => best
  | p :: rest, best => farthestPairGo rest (farthestAux p rest best)

/-- The body of `findSharedEdge` for one pair of edges `(p1,p2)`,
`(q1,q2)`: the reversed exact-match fast path, then the collinear
overlap path guarded by `maxDist > EPSILON` (squared). -/
def checkEdgePair (p1 p2 q1 q2 : Point) : Option (Point × Point) :=
  if closePoints p1 q2 && closePoints p2 q1 then some (p1, p2)
  else if areCollinear p1 p2 q1 && areCollinear p1 p2 q2 then
    let overlapPoints :=
      (if isPointOnSegment p1 q1 q2 then [p1] else []) ++
      (if isPointOnSegment p2 q1 q2 then [p2] else []) ++
      (if isPointOnSegment q1 p1 p2 then [q1] else []) ++
      (if isPointOnSegment q2 p1 p2 then [q2] else [])
    let uniquePoints := dedupPoints overlapPoints
    if uniquePoints.length ≥ 2 then
      match farthestPairGo uniquePoints (-1, none) with
      | (maxDistSq, some (pStart, pEnd)) =>
          if maxDistSq > EPSILON ^ 2 then some (pStart, pEnd) else none
      | (_, none) => none
    else none
  else none

/-- `findSharedEdge` from src/utils/geometry.ts: scan edge pairs in
order, returning the first hit. -/
def findSharedEdge (poly1 poly2 : Polygon) : Option (Point × Point) :=
  (edgesOf poly1).findSome? fun pe =>
    (edgesOf poly2).findSome? fun qe =>
      checkEdgePair pe.1 pe.2 qe.1 qe.2

/-- `getPolygonCenter`: arithmetic mean of the vertices, `(0,0)` for the
empty polygon. -/
def getPolygonCenter (polygon : Polygon) : Point :=
  if polygon.length = 0 then ⟨0, 0⟩
  else
    let s := polygon.foldl (fun (acc : Point) p => ⟨acc.x + p.x, acc.y + p.y⟩) ⟨0, 0⟩
    ⟨s.x / polygon.length, s.y / polygon.length⟩


/-! ## Graph builder (src/services/graphGenerator.ts) -/

/-- The transit types from the builder's `transitTypes` set. -/
def isTransit : UnitType → Bool
  | UnitType.CORRIDOR => true
  | UnitType.STAIRS => true
  | UnitType.ELEVATOR => true
  | UnitType.ENTRANCE => true
  | _ => false

/-- The deterministic door-node id `door-${[a,b].sort().join('--')}`;
JS default string sort is lexicographic, as is `≤` on `String`. -/
def doorNodeId (a b : String) : String :=
  @ite String (String.le a b) (String.decLE a b)
    ("door-" ++ a ++ "--" ++ b) ("door-" ++ b ++ "--" ++ a)

/-- State threaded through the builder: the node list and the
adjacency record. -/
structure BuildState where
  nodes : List NavGraphNode
  edges : String → List NavGraphEdge

/-- Point update of an adjacency record. -/
def pushEdge (m : String → List NavGraphEdge) (k : String) (e : NavGraphEdge) :
    String → List NavGraphEdge :=
  fun x => if x = k then m x ++ [e] else m x

/-- `addEdge` from the builder: pushes the edge and its mirror. -/
def addEdge (m : String → List NavGraphEdge) (nodeAId nodeBId : String)
    (weight : ℚ) (t : EdgeType) : String → List NavGraphEdge :=
  pushEdge (pushEdge m nodeAId ⟨nodeAId, nodeBId, weight, t⟩)
    nodeBId ⟨nodeBId, nodeAId, weight, t⟩

/-- The center node emitted for a traversable unit (STEP 2). -/
def centerNode (u : Unit) : NavGraphNode :=
  ⟨u.id, NodeType.center, getPolygonCenter u.polygon, u.levelId, u.id, some u.type⟩

/-- STEP 3 body for one ordered pair (`unitA` before `unitB` in the
traversable list).  `dist` models `getEuclideanDistance`. -/
def processPair (dist : Point → Point → ℚ) (st : BuildState) (unitA unitB : Unit) :
    BuildState :=
  if unitA.levelId ≠ unitB.levelId then st
  else
    match findSharedEdge unitA.polygon unitB.polygon with
    | none => st
    | some sharedEdge =>
      let centerA := getPolygonCenter unitA.polygon
      let centerB := getPolygonCenter unitB.polygon
      if isTransit unitA.type && isTransit unitB.type then
        { st with edges :=
            (addEdge st.edges unitA.id unitB.id (dist centerA centerB)
              EdgeType.horizontal) }
      else
        let doorMidpoint : Point :=
          ⟨(sharedEdge.1.x + sharedEdge.2.x) / 2, (sharedEdge.1.y + sharedEdge.2.y) / 2⟩
        let doorId := doorNodeId unitA.id unitB.id
        let nodes' :=
          if st.nodes.any (fun n => n.id = doorId) then st.nodes
          else st.nodes ++
            [⟨doorId, NodeType.waypoint, doorMidpoint, unitA.levelId,
              (if isTransit unitA.type then unitB.id else unitA.id), none⟩]
        let edges' := addEdge st.edges unitA.id doorId
          (dist centerA doorMidpoint) EdgeType.horizontal
        let edges'' := addEdge edges' doorId unitB.id
          (dist doorMidpoint centerB) EdgeType.horizontal
        ⟨nodes', edges''⟩

/-- STEP 3: the `i < j` double loop over the traversable units. -/
def pairLoop (dist : Point → Point → ℚ) : List Unit → BuildState → BuildState
  | [], st => st
  | a :: rest, st =>
      pairLoop dist rest (rest.foldl (fun s b => processPair dist s a b) st)

/-- Whether a unit joins a vertical-connector group (JS truthiness: an
absent or empty `verticalConnectorId` is falsy). -/
def inConnector (u : Unit) : Bool :=
  (u.type = UnitType.STAIRS || u.type = UnitType.ELEVATOR) &&
    (match u.verticalConnectorId with
     | some cid => cid ≠ ""
     | none => false)

/-- Connector keys in first-occurrence order (JS `Map` insertion order). -/
def connectorKeys (us : List Unit) : List String :=
  us.foldl
    (fun acc u =>
      if inConnector u then
        match u.verticalConnectorId with
        | some cid => if cid ∈ acc then acc else acc ++ [cid]
        | none => acc
      else acc) []

/-- The members of one connector group, in list order. -/
def groupFor (us : List Unit) (cid : String) : List Unit :=
  us.filter (fun u => inConnector u && u.verticalConnectorId = some cid)

/-- The zIndex sort key: `levels.find(l => l.id === u.levelId)?.zIndex ?? 0`. -/
def zKey (data : CampusData) (u : Unit) : ℚ :=
  ((data.levels.find? (fun l => l.id = u.levelId)).map Level.zIndex).getD 0

/-- Stable insertion placing `x` after existing entries of equal key, so
the result coincides with the (stable) JS `Array.prototype.sort`. -/
def insertByKey (key : Unit → ℚ) (x : Unit) : List Unit → List Unit
  | [] => [x]
  | y :: ys => if key x < key y then x :: y :: ys else y :: insertByKey key x ys

def sortByKey (key : Unit → ℚ) (l : List Unit) : List Unit :=
  l.foldl (fun acc x => insertByKey key x acc) []

/-- The fixed vertical penalty `0.002` from the builder. -/
def VERTICAL_PENALTY : ℚ := 1 / 500

/-- STEP 4: link consecutive members of each zIndex-sorted connector
group with a `vertical` edge weighted `dist + VERTICAL_PENALTY`. -/
def verticalStep (dist : Point → Point → ℚ) (data : CampusData)
    (tus : List Unit) (m : String → List NavGraphEdge) :
    String → List NavGraphEdge :=
  (connectorKeys tus).foldl
    (fun m0 cid =>
      let sortedUnits := sortByKey (zKey data) (groupFor tus cid)
      (sortedUnits.zip sortedUnits.tail).foldl
        (fun m1 ab =>
          let centerA := getPolygonCenter ab.1.polygon
          let centerB := getPolygonCenter ab.2.polygon
          addEdge m1 ab.1.id ab.2.id
            (dist centerA centerB + VERTICAL_PENALTY) EdgeType.vertical)
        m0)
    m

/-- The nearest same-level candidate scan of STEP 5 (strict `<`, running
minimum starting at `Infinity`, skipping candidates with the isolated
unit's own id). -/
def nearestCandidate (dist : Point → Point → ℚ) (tus : List Unit) (isolated : Unit) :
    Option (ℚ × Unit) :=
  tus.foldl
    (fun best candidate =>
      if candidate.id = isolated.id then best
      else if candidate.levelId ≠ isolated.levelId then best
      else
        let d := dist (getPolygonCenter isolated.polygon)
          (getPolygonCenter candidate.polygon)
        match best with
        | none => some (d, candidate)
        | some b => if d < b.1 then some (d, candidate) else best)
    none

/-- STEP 5: connect units still isolated after the shared-edge pass to
their nearest same-level unit, if within `0.005`. -/
def fallbackStep (dist : Point → Point → ℚ) (tus : List Unit)
    (m : String → List NavGraphEdge) : String → List NavGraphEdge :=
  (tus.filter (fun u => m u.id = [])).foldl
    (fun m0 isolated =>
      match nearestCandidate dist tus isolated with
      | none => m0
      | some (nearestDist, nearestUnit) =>
          if nearestDist < 5 / 1000 then
            addEdge m0 isolated.id nearestUnit.id nearestDist EdgeType.horizontal
          else m0)
    m

/-- `generateNavigationGraph` from src/services/graphGenerator.ts,
parameterized by the distance function (`getEuclideanDistance` in the
source). -/
def generateNavigationGraph (dist : Point → Point → ℚ) (data : CampusData) :
    NavigationGraph :=
  let traversableUnits := data.units.filter (fun u => u.type ≠ UnitType.RESTRICTED)
  let st0 : BuildState := ⟨traversableUnits.map centerNode, fun _ => []⟩
  let st3 := pairLoop dist traversableUnits st0
  let m4 := verticalStep dist data traversableUnits st3.edges
  let m5 := fallbackStep dist traversableUnits m4
  ⟨st3.nodes, m5⟩

/-! ## Path solver (`getPath` from the `useGraph` hook built on
`generateNavigationGraph`) -/

/-- `nodeMap.get`: the JS map is populated by `Map.set` over the node
list, so the last node with a given id wins. -/
def lastNode? (g : NavigationGraph) (id : String) : Option NavGraphNode :=
  g.nodes.foldl (fun acc n => if n.id = id then some n else acc) none

/-- `uNode?.unitType === UnitType.STAIRS` (optional chaining: a missing
node or missing `unitType` is not STAIRS). -/
def isStairsAt (g : NavigationGraph) (id : String) : Bool :=
  match lastNode? g id with
  | some n => n.unitType = some UnitType.STAIRS
  | none => false

/-- The per-edge filter check of the solver's relaxation loop: under
`ELEVATOR_ONLY`, a `vertical` edge is skipped when either endpoint's
node is STAIRS-typed. -/
def acceptEdge (g : NavigationGraph) (filter : AccessibilityFilter)
    (e : NavGraphEdge) : Bool :=
  !(filter = AccessibilityFilter.ELEVATOR_ONLY && e.type = EdgeType.vertical &&
    (isStairsAt g e.from' || isStairsAt g e.to'))

/-- First-occurrence deduplication of the node-id list (JS `Set`
insertion semantics building the queue). -/
def dedupFirst (l : List String) : List String :=
  l.foldl (fun acc x => if x ∈ acc then acc else acc ++ [x]) []

/-- Dijkstra working state: the unvisited queue, the distance map
(`⊤` models `Infinity`), and the `previous` map. -/
structure DState where
  queue : List String
  dist : String → WithTop ℚ
  prev : String → Option String

/-- The linear-scan minimum of the solver: first strict minimum wins,
running minimum starts at `Infinity` with no candidate. -/
def selectMinGo (dist : String → WithTop ℚ) :
    Option String × WithTop ℚ → List String → Option String × WithTop ℚ
  | best, [] => best
  | best, id :: rest =>
      selectMinGo dist (if dist id < best.2 then (some id, dist id) else best) rest

def selectMin (dist : String → WithTop ℚ) (queue : List String) :
    Option String × WithTop ℚ :=
  selectMinGo dist (none, ⊤) queue

/-- Point update of a distance map. -/
def updD (d : String → WithTop ℚ) (k : String) (v : WithTop ℚ) :
    String → WithTop ℚ :=
  fun x => if x = k then v else d x

/-- Point update of a `previous` map. -/
def updP (p : String → Option String) (k : String) (v : Option String) :
    String → Option String :=
  fun x => if x = k then v else p x

/-- The relaxation loop over the popped node's adjacency list: skip
targets no longer in the queue, then the filter, then relax. -/
def relaxList (acc : NavGraphEdge → Bool) (u : String) (queue : List String) :
    List NavGraphEdge → (String → WithTop ℚ) → (String → Option String) →
    (String → WithTop ℚ) × (String → Option String)
  | [], d, p => (d, p)
  | e :: es, d, p =>
      if e.to' ∈ queue then
        if acc e then
          let alt := d u + (e.weight : WithTop ℚ)
          if alt < d e.to' then
            relaxList acc u queue es (updD d e.to' alt) (updP p e.to' (some u))
          else relaxList acc u queue es d p
        else relaxList acc u queue es d p
      else relaxList acc u queue es d p

/-- The solver's main loop, fuelled for totality; the fuel passed by
`getPath` (the initial queue length) never runs out, since every
non-breaking iteration removes the popped node from the queue. -/
def dijkstraLoop (g : NavigationGraph) (acc : NavGraphEdge → Bool)
    (endId : String) : Nat → DState → DState
  | 0, st => st
  | fuel + 1, st =>
      if st.queue = [] then st
      else
        match selectMin st.dist st.queue with
        | (none, _) => st
        | (some u, minDist) =>
            if u = endId then st
            else if minDist = ⊤ then st
            else
              let q' := st.queue.erase u
              let dp := relaxList acc u q' (g.edges u) st.dist st.prev
              dijkstraLoop g acc endId fuel ⟨q', dp.1, dp.2⟩

/-- Path reconstruction `while (current) { path.unshift(current);
current = previous.get(current) || null }`: note that a predecessor
equal to the empty string is falsy in JS and stops the walk. -/
def backtrack (prev : String → Option String) : Nat → String → List String
  | 0, c => [c]
  | fuel + 1, c =>
      match prev c with
      | none => [c]
      | some p => if p = "" then [c] else backtrack prev fuel p ++ [c]

/-- `getPath` from the `useGraph` hook: guards (JS falsiness of the
empty string, membership in the node map), Dijkstra, reconstruction. -/
def getPath (g : NavigationGraph) (startId endId : String)
    (filter : AccessibilityFilter) : Option (List String) :=
  if startId = "" ∨ endId = "" then none
  else if (lastNode? g startId).isNone ∨ (lastNode? g endId).isNone then none
  else
    let queue0 := dedupFirst (g.nodes.map NavGraphNode.id)
    let st0 : DState :=
      ⟨queue0, fun k => if k = startId then (0 : WithTop ℚ) else ⊤, fun _ => none⟩
    let stF := dijkstraLoop g (acceptEdge g filter) endId queue0.length st0
    if stF.dist endId = ⊤ then none
    else
      let path := backtrack stF.prev g.nodes.length endId
      if path.length > 0 then some path else none

/-! ## Route materializer (`getPathWaypoints`, `calculatePathDistance`) -/

/-- `getPathWaypoints`: map ids to stored point/level, dropping unknown
ids. -/
def getPathWaypoints (g : NavigationGraph) (path : List String) : List Waypoint :=
  path.filterMap fun id => (lastNode? g id).map fun n => ⟨n.point, n.levelId⟩

/-- `calculatePathDistance`, parameterized by the distance function
(`getHaversineDistance` in the source): consecutive same-level pairs
accumulate, cross-level pairs are skipped. -/
def calculatePathDistance (hav : Point → Point → ℚ) (waypoints : List Waypoint) : ℚ :=
  (waypoints.zip waypoints.tail).foldl
    (fun acc ab =>
      if ab.1.levelId = ab.2.levelId then acc + hav ab.1.point ab.2.point else acc)
    0


/-! ## Walks, graph hypotheses, and solver invariants -/

/-- The ids of the graph's nodes, in order. -/
def nodeIds (g : NavigationGraph) : List String :=
  g.nodes.map NavGraphNode.id

/-- Every adjacency entry is keyed by its source and stays inside the
node set; `generateNavigationGraph` establishes this. -/
def EdgesClosed (g : NavigationGraph) : Prop :=
  ∀ x e, e ∈ g.edges x → e.from' = x ∧ x ∈ nodeIds g ∧ e.to' ∈ nodeIds g

/-- All edge weights are nonnegative. -/
def NonnegWeights (g : NavigationGraph) : Prop :=
  ∀ x e, e ∈ g.edges x → 0 ≤ e.weight

/-- A walk along filter-accepted adjacency entries whose intermediate
sources all satisfy `S`. -/
inductive SWalk (g : NavigationGraph) (acc : NavGraphEdge → Bool) (S : String → Prop) :
    String → String → List NavGraphEdge → Prop
  | nil (u : String) : SWalk g acc S u u []
  | cons {u v w : String} {e : NavGraphEdge} {es : List NavGraphEdge} :
      S u → e ∈ g.edges u → acc e = true → e.to' = v → SWalk g acc S v w es →
      SWalk g acc S u w (e :: es)

/-- A walk along filter-accepted adjacency entries (no source
restriction): the paths the claims quantify over. -/
def AccWalk (g : NavigationGraph) (acc : NavGraphEdge → Bool)
    (u v : String) (es : List NavGraphEdge) : Prop :=
  SWalk g acc (fun _ => True) u v es

/-- Total weight of a walk: the sum of the traversed edge weights. -/
def walkWeight (es : List NavGraphEdge) : ℚ :=
  (es.map NavGraphEdge.weight).sum

@[simp] theorem walkWeight_nil : walkWeight [] = 0 := rfl

@[simp] theorem walkWeight_cons (e : NavGraphEdge) (es : List NavGraphEdge) :
    walkWeight (e :: es) = e.weight + walkWeight es := by
  simp [walkWeight]

@[simp] theorem walkWeight_append (es es' : List NavGraphEdge) :
    walkWeight (es ++ es') = walkWeight es + walkWeight es' := by
  simp [walkWeight]

theorem SWalk.mono {g : NavigationGraph} {acc : NavGraphEdge → Bool}
    {S S' : String → Prop} (hS : ∀ x, S x → S' x) {u v : String}
    {es : List NavGraphEdge} (h : SWalk g acc S u v es) : SWalk g acc S' u v es := by
  induction h with
  | nil u => exact SWalk.nil u
  | cons hs he ha ht _ ih => exact SWalk.cons (hS _ hs) he ha ht ih

theorem SWalk.toAccWalk {g : NavigationGraph} {acc : NavGraphEdge → Bool}
    {S : String → Prop} {u v : String} {es : List NavGraphEdge}
    (h : SWalk g acc S u v es) : AccWalk g acc u v es :=
  h.mono (fun _ _ => trivial)

theorem SWalk.snoc {g : NavigationGraph} {acc : NavGraphEdge → Bool}
    {S : String → Prop} {u v : String} {es : List NavGraphEdge}
    (h : SWalk g acc S u v es) :
    ∀ {e : NavGraphEdge}, S v → e ∈ g.edges v → acc e = true →
      SWalk g acc S u e.to' (es ++ [e]) := by
  induction h with
  | nil u =>
      intro e hv he ha
      exact SWalk.cons hv he ha rfl (SWalk.nil _)
  | cons hs he' ha' ht _ ih =>
      intro e hv he ha
      exact SWalk.cons hs he' ha' ht (ih hv he ha)

theorem AccWalk.weight_nonneg {g : NavigationGraph} {acc : NavGraphEdge → Bool}
    (hw : NonnegWeights g) {u v : String} {es : List NavGraphEdge}
    (h : AccWalk g acc u v es) : 0 ≤ walkWeight es := by
  induction h with
  | nil u => simp
  | cons _ he _ _ _ ih =>
      simpa using add_nonneg (hw _ _ he) ih

/-- Reachability through filter-accepted edges. -/
def Reach (g : NavigationGraph) (acc : NavGraphEdge → Bool) (u v : String) : Prop :=
  ∃ es, AccWalk g acc u v es

/-- The predecessor chain of the solver: following `prev` from `v`
reaches `startId` in `n` steps. -/
inductive Chain (prev : String → Option String) (startId : String) : String → Nat → Prop
  | base : Chain prev startId startId 0
  | step {v u : String} {n : Nat} : prev v = some u → Chain prev startId u n →
      Chain prev startId v (n + 1)

/-- Consecutive elements of the list are related by the `prev` map. -/
def linkedByPrev (prev : String → Option String) : List String → Prop
  | [] => True
  | [_] => True
  | a :: b :: rest => prev b = some a ∧ linkedByPrev prev (b :: rest)

/-- A vertex list is realized by an edge list: each consecutive pair is
joined by a filter-accepted adjacency entry. -/
inductive ListLinks (g : NavigationGraph) (acc : NavGraphEdge → Bool) :
    List String → List NavGraphEdge → Prop
  | single (u : String) : ListLinks g acc [u] []
  | cons {u v : String} {rest : List String} {e : NavGraphEdge} {es : List NavGraphEdge} :
      e ∈ g.edges u → acc e = true → e.to' = v → ListLinks g acc (v :: rest) es →
      ListLinks g acc (u :: v :: rest) (e :: es)

theorem ListLinks.toWalk {g : NavigationGraph} {acc : NavGraphEdge → Bool}
    {l : List String} {es : List NavGraphEdge} (h : ListLinks g acc l es)
    {u v : String} (hu : l.head? = some u) (hv : l.getLast? = some v) :
    AccWalk g acc u v es := by
  induction h generalizing u v with
  | single w =>
      simp at hu hv
      subst hu; subst hv
      exact SWalk.nil _
  | @cons a b rest e es he ha ht _ ih =>
      simp at hu
      subst hu
      have hv' : (b :: rest).getLast? = some v := by
        simpa [List.getLast?_cons_cons] using hv
      exact SWalk.cons trivial he ha ht (ih rfl hv')

/-- Vertices settled by the solver: initial-queue members no longer in
the working queue. -/
def Settled (V queue : List String) (x : String) : Prop :=
  x ∈ V ∧ x ∉ queue

/-- The solver loop invariant. -/
structure LoopInv (g : NavigationGraph) (acc : NavGraphEdge → Bool)
    (startId : String) (V : List String) (st : DState) : Prop where
  sub : st.queue.Sublist V
  start_dist : st.dist startId = 0
  start_prev : st.prev startId = none
  nonneg : ∀ v, 0 ≤ st.dist v
  untouched : ∀ v, v ∉ V → st.dist v = ⊤ ∧ st.prev v = none
  sound : ∀ v, st.dist v ≠ ⊤ →
    ∃ es, SWalk g acc (Settled V st.queue) startId v es ∧
      st.dist v = (walkWeight es : WithTop ℚ)
  prev_spec : ∀ v u, st.prev v = some u → Settled V st.queue u ∧ st.dist u ≠ ⊤ ∧
    ∃ e ∈ g.edges u, acc e = true ∧ e.to' = v ∧
      st.dist v = st.dist u + (e.weight : WithTop ℚ)
  fin_prev : ∀ v, st.dist v ≠ ⊤ → v = startId ∨ ∃ u, st.prev v = some u
  chain : ∀ v, st.dist v ≠ ⊤ → ∃ n, Chain st.prev startId v n ∧
    n + st.queue.length ≤ V.length + (if v ∈ st.queue then 1 else 0)
  mono : ∀ u, Settled V st.queue u → ∀ q ∈ st.queue, st.dist u ≤ st.dist q
  relaxed : ∀ u, Settled V st.queue u → ∀ e ∈ g.edges u, acc e = true →
    st.dist e.to' ≤ st.dist u + (e.weight : WithTop ℚ)
  settled_fin : ∀ u, Settled V st.queue u → st.dist u ≠ ⊤



/-! ## Helper lemmas: updates, deduplication, minimum selection -/

@[simp] theorem updD_same (d : String → WithTop ℚ) (k : String) (v : WithTop ℚ) :
    updD d k v k = v := by
  simp [updD]

theorem updD_ne (d : String → WithTop ℚ) {k x : String} (v : WithTop ℚ)
    (h : x ≠ k) : updD d k v x = d x := by
  simp [updD, h]

@[simp] theorem updP_same (p : String → Option String) (k : String) (v : Option String) :
    updP p k v k = v := by
  simp [updP]

theorem updP_ne (p : String → Option String) {k x : String} (v : Option String)
    (h : x ≠ k) : updP p k v x = p x := by
  simp [updP, h]

theorem dedupFirst_go (l : List String) :
    ∀ acc : List String, acc.Nodup →
      (l.foldl (fun acc x => if x ∈ acc then acc else acc ++ [x]) acc).Nodup ∧
      (∀ x, x ∈ l.foldl (fun acc x => if x ∈ acc then acc else acc ++ [x]) acc ↔
        x ∈ acc ∨ x ∈ l) ∧
      (l.foldl (fun acc x => if x ∈ acc then acc else acc ++ [x]) acc).length ≤
        acc.length + l.length := by
  induction l with
  | nil => intro acc h; simp [h]
  | cons a l ih =>
      intro acc h
      simp only [List.foldl_cons]
      by_cases ha : a ∈ acc
      · simp only [if_pos ha]
        obtain ⟨h1, h2, h3⟩ := ih acc h
        refine ⟨h1, fun x => ?_, by simp only [List.length_cons]; omega⟩
        rw [h2]
        constructor
        · rintro (hx | hx)
          · exact Or.inl hx
          · exact Or.inr (List.mem_cons_of_mem _ hx)
        · rintro (hx | hx)
          · exact Or.inl hx
          · rcases List.mem_cons.mp hx with rfl | hx
            · exact Or.inl ha
            · exact Or.inr hx
      · simp only [if_neg ha]
        have hnd : (acc ++ [a]).Nodup := by
          simp [List.nodup_append, h, ha]
        obtain ⟨h1, h2, h3⟩ := ih (acc ++ [a]) hnd
        refine ⟨h1, fun x => ?_, by
          simp only [List.length_append, List.length_singleton, List.length_cons,
            List.length_nil] at h3 ⊢
          omega⟩
        rw [h2]
        simp only [List.mem_append, List.mem_singleton, List.mem_cons]
        tauto

theorem dedupFirst_nodup (l : List String) : (dedupFirst l).Nodup :=
  (dedupFirst_go l [] List.nodup_nil).1

theorem mem_dedupFirst {l : List String} {x : String} :
    x ∈ dedupFirst l ↔ x ∈ l := by
  have := (dedupFirst_go l [] List.nodup_nil).2.1 x
  simpa [dedupFirst] using this

theorem dedupFirst_length_le (l : List String) :
    (dedupFirst l).length ≤ l.length := by
  have := (dedupFirst_go l [] List.nodup_nil).2.2
  simpa [dedupFirst] using this

theorem selectMinGo_spec (dist : String → WithTop ℚ) :
    ∀ (l : List String) (best : Option String × WithTop ℚ),
      (selectMinGo dist best l).2 ≤ best.2 ∧
      (∀ x ∈ l, (selectMinGo dist best l).2 ≤ dist x) ∧
      ((selectMinGo dist best l).1 = none → selectMinGo dist best l = best) ∧
      (∀ u, (selectMinGo dist best l).1 = some u →
        (best.1 = some u ∧ (selectMinGo dist best l).2 = best.2) ∨
        (u ∈ l ∧ (selectMinGo dist best l).2 = dist u ∧ dist u ≠ ⊤)) := by
  intro l
  induction l with
  | nil =>
      intro best
      refine ⟨le_refl _, by simp, fun _ => rfl, fun u hu => Or.inl ⟨hu, rfl⟩⟩
  | cons a l ih =>
      intro best
      simp only [selectMinGo]
      by_cases hlt : dist a < best.2
      · simp only [if_pos hlt]
        obtain ⟨h1, h2, h3, h4⟩ := ih (some a, dist a)
        refine ⟨(lt_of_le_of_lt h1 hlt).le, ?_, ?_, ?_⟩
        · intro x hx
          rcases List.mem_cons.mp hx with rfl | hx
          · exact h1
          · exact h2 x hx
        · intro hnone
          have := h3 hnone
          rw [this] at hnone
          simp at hnone
        · intro u hu
          rcases h4 u hu with ⟨hb, he⟩ | ⟨hm, he, ht⟩
          · right
            simp only at hb he
            rcases Option.some.injEq _ _ ▸ hb with rfl
            have hat : dist a ≠ ⊤ := by
              intro h
              rw [h] at hlt
              exact absurd hlt (by simp)
            exact ⟨List.mem_cons_self _ _, by simpa using he, by
              simpa using hat⟩
          · exact Or.inr ⟨List.mem_cons_of_mem _ hm, he, ht⟩
      · simp only [if_neg hlt]
        obtain ⟨h1, h2, h3, h4⟩ := ih best
        refine ⟨h1, ?_, h3, ?_⟩
        · intro x hx
          rcases List.mem_cons.mp hx with rfl | hx
          · exact le_trans h1 (not_lt.mp hlt)
          · exact h2 x hx
        · intro u hu
          rcases h4 u hu with h | ⟨hm, he⟩
          · exact Or.inl h
          · exact Or.inr ⟨List.mem_cons_of_mem _ hm, he⟩

theorem selectMin_some {dist : String → WithTop ℚ} {queue : List String}
    {u : String} {m : WithTop ℚ} (h : selectMin dist queue = (some u, m)) :
    u ∈ queue ∧ m = dist u ∧ dist u ≠ ⊤ ∧ ∀ x ∈ queue, dist u ≤ dist x := by
  obtain ⟨h1, h2, _h3, h4⟩ := selectMinGo_spec dist queue (none, ⊤)
  rw [show selectMinGo dist (none, ⊤) queue = selectMin dist queue from rfl, h] at h1 h2 h4
  rcases h4 u rfl with ⟨hb, _⟩ | ⟨hm, he, ht⟩
  · simp at hb
  · simp only at he
    refine ⟨hm, he, ht, fun x hx => ?_⟩
    have := h2 x hx
    rwa [he] at this

theorem selectMin_none {dist : String → WithTop ℚ} {queue : List String}
    {m : WithTop ℚ} (h : selectMin dist queue = (none, m)) :
    ∀ x ∈ queue, dist x = ⊤ := by
  obtain ⟨_h1, h2, _h3, _h4⟩ := selectMinGo_spec dist queue (none, ⊤)
  rw [show selectMinGo dist (none, ⊤) queue = selectMin dist queue from rfl, h] at h2
  intro x hx
  have h5 := h2 x hx
  have h6 := _h3
  rw [show selectMinGo dist (none, ⊤) queue = selectMin dist queue from rfl, h] at h6
  have := h6 rfl
  have hm : m = ⊤ := congrArg Prod.snd this
  rw [hm] at h5
  exact top_le_iff.mp h5

theorem Chain.update_of_ne {p : String → Option String} {startId y : String}
    {w : Option String} (hside : ∀ x u, p x = some u → u ≠ y) :
    ∀ {v : String} {n : Nat}, Chain p startId v n → v ≠ y →
      Chain (updP p y w) startId v n := by
  intro v n h
  induction h with
  | base => intro _; exact Chain.base
  | @step v' u n' hp hc ih =>
      intro hv
      have hu : u ≠ y := hside _ _ hp
      exact Chain.step (by rw [updP_ne p w hv]; exact hp) (ih hu)


/-! ## Preservation of the invariant through one solver iteration -/

/-- The invariant as it stands between popping `u` and finishing the
relaxation of its adjacency list: `relaxed` is only guaranteed for the
previously settled vertices, and the popped vertex dominates every
settled distance (`factM`). -/
structure RInv (g : NavigationGraph) (acc : NavGraphEdge → Bool)
    (startId : String) (V : List String) (u : String) (q' : List String)
    (d : String → WithTop ℚ) (p : String → Option String) : Prop where
  sub : q'.Sublist V
  u_settled : Settled V q' u
  start_dist : d startId = 0
  start_prev : p startId = none
  nonneg : ∀ v, 0 ≤ d v
  untouched : ∀ v, v ∉ V → d v = ⊤ ∧ p v = none
  sound : ∀ v, d v ≠ ⊤ →
    ∃ es, SWalk g acc (Settled V q') startId v es ∧ d v = (walkWeight es : WithTop ℚ)
  prev_spec : ∀ v w, p v = some w → Settled V q' w ∧ d w ≠ ⊤ ∧
    ∃ e ∈ g.edges w, acc e = true ∧ e.to' = v ∧ d v = d w + (e.weight : WithTop ℚ)
  fin_prev : ∀ v, d v ≠ ⊤ → v = startId ∨ ∃ w, p v = some w
  chain : ∀ v, d v ≠ ⊤ → ∃ n, Chain p startId v n ∧
    n + q'.length ≤ V.length + (if v ∈ q' then 1 else 0)
  mono : ∀ s, Settled V q' s → ∀ q ∈ q', d s ≤ d q
  relaxedOld : ∀ s, Settled V q' s → s ≠ u → ∀ e ∈ g.edges s, acc e = true →
    d e.to' ≤ d s + (e.weight : WithTop ℚ)
  factM : ∀ s, Settled V q' s → d s ≤ d u
  settled_fin : ∀ s, Settled V q' s → d s ≠ ⊤

theorem Settled.of_erase {V q : List String} {u x : String}
    (h : Settled V (q.erase u) x) (hx : x ≠ u) : Settled V q x := by
  refine ⟨h.1, fun hmem => h.2 ?_⟩
  exact (List.mem_erase_of_ne hx).mpr hmem

theorem Settled.mono_queue {V q : List String} {u x : String}
    (h : Settled V q x) : Settled V (q.erase u) x :=
  ⟨h.1, fun hmem => h.2 (List.mem_of_mem_erase hmem)⟩

/-- Popping the selected minimum `u` out of the queue turns the loop
invariant into the relaxation invariant. -/
theorem LoopInv.pop {g : NavigationGraph} {acc : NavGraphEdge → Bool}
    {startId : String} {V : List String} {st : DState}
    (hV : V.Nodup) (inv : LoopInv g acc startId V st)
    {u : String} {m : WithTop ℚ}
    (hsel : selectMin st.dist st.queue = (some u, m)) :
    RInv g acc startId V u (st.queue.erase u) st.dist st.prev := by
  obtain ⟨huq, hmu, hut, hmin⟩ := selectMin_some hsel
  have hqnd : st.queue.Nodup := inv.sub.nodup hV
  have herase_sub : (st.queue.erase u).Sublist V :=
    (List.erase_sublist u st.queue).trans inv.sub
  have hu_not : u ∉ st.queue.erase u := fun h =>
    (List.Nodup.not_mem_erase hqnd) h
  refine ⟨herase_sub, ⟨inv.sub.subset huq, hu_not⟩, inv.start_dist, inv.start_prev,
    inv.nonneg, inv.untouched, ?_, ?_, inv.fin_prev, ?_, ?_, ?_, ?_, ?_⟩
  · intro v hv
    obtain ⟨es, hes, hw⟩ := inv.sound v hv
    exact ⟨es, hes.mono (fun x hx => hx.mono_queue), hw⟩
  · intro v w hw
    obtain ⟨hs, hd, he⟩ := inv.prev_spec v w hw
    exact ⟨hs.mono_queue, hd, he⟩
  · intro v hv
    obtain ⟨n, hc, hb⟩ := inv.chain v hv
    refine ⟨n, hc, ?_⟩
    have hlen : (st.queue.erase u).length = st.queue.length - 1 :=
      List.length_erase_of_mem huq
    have hql : 1 ≤ st.queue.length := List.length_pos_of_mem huq
    by_cases hvq : v ∈ st.queue
    · by_cases hvu : v = u
      · subst hvu
        simp only [if_neg hu_not]
        simp only [if_pos hvq] at hb
        omega
      · have : v ∈ st.queue.erase u := (List.mem_erase_of_ne hvu).mpr hvq
        simp only [if_pos this]
        simp only [if_pos hvq] at hb
        omega
    · have : v ∉ st.queue.erase u := fun h => hvq (List.mem_of_mem_erase h)
      simp only [if_neg this]
      simp only [if_neg hvq] at hb
      omega
  · intro s hs q hq
    by_cases hsu : s = u
    · subst hsu
      exact hmin q (List.mem_of_mem_erase hq)
    · exact inv.mono s (hs.of_erase hsu) q (List.mem_of_mem_erase hq)
  · intro s hs hsu e he ha
    exact inv.relaxed s (hs.of_erase hsu) e he ha
  · intro s hs
    by_cases hsu : s = u
    · subst hsu; exact le_refl _
    · exact inv.mono s (hs.of_erase hsu) u huq
  · intro s hs
    by_cases hsu : s = u
    · subst hsu; exact hut
    · exact inv.settled_fin s (hs.of_erase hsu)


/-- One successful relaxation (`alt < distances.get(edge.to)`) preserves
the relaxation invariant. -/
theorem RInv.update {g : NavigationGraph} {acc : NavGraphEdge → Bool}
    {startId : String} {V : List String} {u : String} {q' : List String}
    {d : String → WithTop ℚ} {p : String → Option String}
    (hNonneg : NonnegWeights g)
    (r : RInv g acc startId V u q' d p)
    {e : NavGraphEdge} (he : e ∈ g.edges u) (ha : acc e = true)
    (hyq : e.to' ∈ q') (hlt : d u + (e.weight : WithTop ℚ) < d e.to') :
    RInv g acc startId V u q'
      (updD d e.to' (d u + (e.weight : WithTop ℚ)))
      (updP p e.to' (some u)) := by
  set y := e.to' with hy
  set alt := d u + (e.weight : WithTop ℚ) with halt
  have hyu : y ≠ u := fun h => r.u_settled.2 (h ▸ hyq)
  have hyV : y ∈ V := r.sub.subset hyq
  have hdu_fin : d u ≠ ⊤ := r.settled_fin u r.u_settled
  have hw0 : 0 ≤ e.weight := hNonneg u e he
  have hw0' : (0 : WithTop ℚ) ≤ (e.weight : WithTop ℚ) := by exact_mod_cast hw0
  have halt0 : 0 ≤ alt := add_nonneg (r.nonneg u) hw0'
  have hy_start : y ≠ startId := by
    intro h
    rw [h, r.start_dist] at hlt
    exact absurd hlt (not_lt.mpr halt0)
  have halt_fin : alt ≠ ⊤ := by
    rw [halt]
    exact WithTop.add_ne_top.mpr ⟨hdu_fin, WithTop.coe_ne_top⟩
  have hdec : ∀ x, updD d y alt x ≤ d x := by
    intro x
    by_cases h : x = y
    · subst h; rw [updD_same]; exact hlt.le
    · rw [updD_ne d alt h]
  have hside : ∀ x w, p x = some w → w ≠ y := by
    intro x w h hyw
    exact (r.prev_spec x w h).1.2 (hyw ▸ hyq)
  have hd'u : updD d y alt u = d u := updD_ne d alt hyu.symm
  refine ⟨r.sub, r.u_settled, ?_, ?_, ?_, ?_, ?_, ?_, ?_, ?_, ?_, ?_, ?_, ?_⟩
  · rw [updD_ne d alt (Ne.symm hy_start)]; exact r.start_dist
  · rw [updP_ne p (some u) (Ne.symm hy_start)]; exact r.start_prev
  · intro v
    by_cases h : v = y
    · subst h; rw [updD_same]; exact halt0
    · rw [updD_ne d alt h]; exact r.nonneg v
  · intro v hv
    have hvy : v ≠ y := fun h => hv (h ▸ hyV)
    rw [updD_ne d alt hvy, updP_ne p (some u) hvy]
    exact r.untouched v hv
  · intro v hv
    by_cases h : v = y
    · subst h
      obtain ⟨es, hes, hw⟩ := r.sound u hdu_fin
      refine ⟨es ++ [e], hes.snoc r.u_settled he ha, ?_⟩
      rw [updD_same, halt, hw]
      simp [walkWeight]
    · rw [updD_ne d alt h] at hv ⊢
      exact r.sound v hv
  · intro v w hw
    by_cases h : v = y
    · subst h
      rw [updP_same] at hw
      rcases Option.some.injEq _ _ ▸ hw with rfl
      refine ⟨r.u_settled, by rw [hd'u]; exact hdu_fin, e, he, ha, rfl, ?_⟩
      rw [updD_same, hd'u]
    · rw [updP_ne p (some u) h] at hw
      obtain ⟨hs, hdw, e', he', ha', ht', heq⟩ := r.prev_spec v w hw
      have hwy : w ≠ y := fun hh => hs.2 (hh ▸ hyq)
      refine ⟨hs, by rw [updD_ne d alt hwy]; exact hdw, e', he', ha', ht', ?_⟩
      rw [updD_ne d alt h, updD_ne d alt hwy]
      exact heq
  · intro v hv
    by_cases h : v = y
    · subst h
      exact Or.inr ⟨u, updP_same p y (some u)⟩
    · rw [updD_ne d alt h] at hv
      rcases r.fin_prev v hv with h0 | ⟨w, hw⟩
      · exact Or.inl h0
      · exact Or.inr ⟨w, by rw [updP_ne p (some u) h]; exact hw⟩
  · intro v hv
    by_cases h : v = y
    · subst h
      obtain ⟨n, hc, hb⟩ := r.chain u hdu_fin
      have hc' : Chain (updP p y (some u)) startId u n :=
        Chain.update_of_ne hside hc hyu.symm
      refine ⟨n + 1, Chain.step (updP_same p y (some u)) hc', ?_⟩
      simp only [if_neg r.u_settled.2] at hb
      simp only [if_pos hyq]
      omega
    · rw [updD_ne d alt h] at hv
      obtain ⟨n, hc, hb⟩ := r.chain v hv
      exact ⟨n, Chain.update_of_ne hside hc h, hb⟩
  · intro s hs q hq
    have hsy : s ≠ y := fun h => hs.2 (h ▸ hyq)
    rw [updD_ne d alt hsy]
    by_cases h : q = y
    · subst h
      rw [updD_same]
      exact le_trans (r.factM s hs) (le_add_of_nonneg_right hw0')
    · rw [updD_ne d alt h]
      exact r.mono s hs q hq
  · intro s hs hsu e' he' ha'
    have hsy : s ≠ y := fun h => hs.2 (h ▸ hyq)
    rw [updD_ne d alt hsy]
    exact le_trans (hdec e'.to') (r.relaxedOld s hs hsu e' he' ha')
  · intro s hs
    have hsy : s ≠ y := fun h => hs.2 (h ▸ hyq)
    rw [updD_ne d alt hsy, hd'u]
    exact r.factM s hs
  · intro s hs
    have hsy : s ≠ y := fun h => hs.2 (h ▸ hyq)
    rw [updD_ne d alt hsy]
    exact r.settled_fin s hs


/-- Folding the relaxation over an adjacency-list suffix preserves the
relaxation invariant; distances never increase, the popped vertex keeps
its distance, and every processed accepted edge ends up relaxed. -/
theorem relaxList_rinv {g : NavigationGraph} {acc : NavGraphEdge → Bool}
    {startId : String} {V : List String} {u : String} {q' : List String}
    (hNonneg : NonnegWeights g) :
    ∀ (es : List NavGraphEdge) (d : String → WithTop ℚ) (p : String → Option String),
      RInv g acc startId V u q' d p → (∀ e ∈ es, e ∈ g.edges u) →
      RInv g acc startId V u q' (relaxList acc u q' es d p).1 (relaxList acc u q' es d p).2 ∧
      (∀ x, (relaxList acc u q' es d p).1 x ≤ d x) ∧
      (relaxList acc u q' es d p).1 u = d u ∧
      (∀ e ∈ es, acc e = true → e.to' ∈ V →
        (relaxList acc u q' es d p).1 e.to' ≤ d u + (e.weight : WithTop ℚ)) := by
  intro es
  induction es with
  | nil =>
      intro d p r _
      exact ⟨r, fun _ => le_refl _, rfl, by simp⟩
  | cons e es ih =>
      intro d p r hmem
      have he : e ∈ g.edges u := hmem e (List.mem_cons_self _ _)
      have hmem' : ∀ e' ∈ es, e' ∈ g.edges u :=
        fun e' h => hmem e' (List.mem_cons_of_mem _ h)
      by_cases hq : e.to' ∈ q'
      · by_cases ha : acc e = true
        · by_cases hlt : d u + (e.weight : WithTop ℚ) < d e.to'
          · -- successful relaxation
            have r' := r.update hNonneg he ha hq hlt
            have step : relaxList acc u q' (e :: es) d p =
                relaxList acc u q' es
                  (updD d e.to' (d u + (e.weight : WithTop ℚ)))
                  (updP p e.to' (some u)) := by
              simp [relaxList, hq, ha, hlt]
            obtain ⟨r'', hdec, hdu, hrel⟩ := ih _ _ r' hmem'
            have hyu : e.to' ≠ u := fun h => r.u_settled.2 (h ▸ hq)
            have hd'u : updD d e.to' (d u + (e.weight : WithTop ℚ)) u = d u :=
              updD_ne d _ hyu.symm
            rw [step]
            refine ⟨r'', ?_, by rw [hdu, hd'u], ?_⟩
            · intro x
              refine le_trans (hdec x) ?_
              by_cases h : x = e.to'
              · subst h; rw [updD_same]; exact hlt.le
              · rw [updD_ne d _ h]
            · intro e' he' ha' hV'
              rcases List.mem_cons.mp he' with rfl | he'
              · refine le_trans (hdec e'.to') ?_
                rw [updD_same]
              · have := hrel e' he' ha' hV'
                rwa [hd'u] at this
          · -- alt not smaller: no update
            have step : relaxList acc u q' (e :: es) d p =
                relaxList acc u q' es d p := by
              simp [relaxList, hq, ha, hlt]
            obtain ⟨r'', hdec, hdu, hrel⟩ := ih d p r hmem'
            rw [step]
            refine ⟨r'', hdec, hdu, ?_⟩
            intro e' he' ha' hV'
            rcases List.mem_cons.mp he' with rfl | he'
            · exact le_trans (hdec e'.to') (not_lt.mp hlt)
            · exact hrel e' he' ha' hV'
        · -- edge rejected by the filter
          have step : relaxList acc u q' (e :: es) d p =
              relaxList acc u q' es d p := by
            simp [relaxList, hq, ha]
          obtain ⟨r'', hdec, hdu, hrel⟩ := ih d p r hmem'
          rw [step]
          refine ⟨r'', hdec, hdu, ?_⟩
          intro e' he' ha' hV'
          rcases List.mem_cons.mp he' with rfl | he'
          · exact absurd ha' ha
          · exact hrel e' he' ha' hV'
      · -- target already settled (or outside the queue)
        have step : relaxList acc u q' (e :: es) d p =
            relaxList acc u q' es d p := by
          simp [relaxList, hq]
        obtain ⟨r'', hdec, hdu, hrel⟩ := ih d p r hmem'
        rw [step]
        refine ⟨r'', hdec, hdu, ?_⟩
        intro e' he' ha' hV'
        rcases List.mem_cons.mp he' with rfl | he'
        · -- e'.to' is settled: its distance is dominated by d u
          have hst : Settled V q' e'.to' := ⟨hV', hq⟩
          have h1 : d e'.to' ≤ d u := r.factM _ hst
          have hw0' : (0 : WithTop ℚ) ≤ (e'.weight : WithTop ℚ) := by
            exact_mod_cast hNonneg u e' he
          exact le_trans (hdec e'.to') (le_trans h1 (le_add_of_nonneg_right hw0'))
        · exact hrel e' he' ha' hV'


/-- One full solver iteration (pop the minimum, relax its adjacency
list) preserves the loop invariant. -/
theorem LoopInv.step {g : NavigationGraph} {acc : NavGraphEdge → Bool}
    {startId : String} {V : List String} {st : DState}
    (hClosed : EdgesClosed g) (hNonneg : NonnegWeights g) (hV : V.Nodup)
    (hVids : ∀ x, x ∈ nodeIds g → x ∈ V)
    (inv : LoopInv g acc startId V st)
    {u : String} {m : WithTop ℚ}
    (hsel : selectMin st.dist st.queue = (some u, m)) :
    LoopInv g acc startId V
      ⟨st.queue.erase u,
       (relaxList acc u (st.queue.erase u) (g.edges u) st.dist st.prev).1,
       (relaxList acc u (st.queue.erase u) (g.edges u) st.dist st.prev).2⟩ := by
  have r0 := inv.pop hV hsel
  obtain ⟨r1, hdec, hdu, hrel⟩ :=
    relaxList_rinv hNonneg (g.edges u) st.dist st.prev r0 (fun e h => h)
  refine ⟨r1.sub, r1.start_dist, r1.start_prev, r1.nonneg, r1.untouched,
    r1.sound, r1.prev_spec, r1.fin_prev, r1.chain, r1.mono, ?_, r1.settled_fin⟩
  intro s hs e he ha
  by_cases hsu : s = u
  · subst hsu
    have hto : e.to' ∈ V := hVids _ (hClosed s e he).2.2
    have := hrel e he ha hto
    calc (relaxList acc s (st.queue.erase s) (g.edges s) st.dist st.prev).1 e.to'
        ≤ st.dist s + (e.weight : WithTop ℚ) := this
      _ = _ := by rw [← hdu]
  · exact r1.relaxedOld s hs hsu e he ha

/-- What holds of the state in which the solver loop stops. -/
def ExitCond (endId : String) (st : DState) : Prop :=
  st.queue = [] ∨ (∀ q ∈ st.queue, st.dist q = ⊤) ∨
    (endId ∈ st.queue ∧ st.dist endId ≠ ⊤ ∧
      ∀ q ∈ st.queue, st.dist endId ≤ st.dist q)

/-- The solver loop preserves the invariant and stops in a state
satisfying `ExitCond`, provided the fuel covers the queue. -/
theorem dijkstraLoop_spec {g : NavigationGraph} {acc : NavGraphEdge → Bool}
    {startId endId : String} {V : List String}
    (hClosed : EdgesClosed g) (hNonneg : NonnegWeights g) (hV : V.Nodup)
    (hVids : ∀ x, x ∈ nodeIds g → x ∈ V) :
    ∀ (fuel : Nat) (st : DState), LoopInv g acc startId V st →
      st.queue.length ≤ fuel →
      LoopInv g acc startId V (dijkstraLoop g acc endId fuel st) ∧
      ExitCond endId (dijkstraLoop g acc endId fuel st) := by
  intro fuel
  induction fuel with
  | zero =>
      intro st inv hlen
      have hq : st.queue = [] := List.eq_nil_of_length_eq_zero (Nat.le_zero.mp hlen)
      exact ⟨inv, Or.inl hq⟩
  | succ fuel ih =>
      intro st inv hlen
      simp only [dijkstraLoop]
      by_cases hq : st.queue = []
      · simp only [if_pos hq]
        exact ⟨inv, Or.inl hq⟩
      · simp only [if_neg hq]
        rcases hsel : selectMin st.dist st.queue with ⟨u', m⟩
        cases u' with
        | none =>
            exact ⟨inv, Or.inr (Or.inl (selectMin_none hsel))⟩
        | some u =>
            obtain ⟨huq, hmu, hut, hmin⟩ := selectMin_some hsel
            by_cases hend : u = endId
            · subst hend
              simp only [if_pos rfl]
              exact ⟨inv, Or.inr (Or.inr ⟨huq, hut, hmin⟩)⟩
            · simp only [if_neg hend]
              have hm : ¬ m = ⊤ := by rw [hmu]; exact hut
              simp only [if_neg hm]
              have inv' := inv.step hClosed hNonneg hV hVids hsel
              have hlen' : (st.queue.erase u).length ≤ fuel := by
                have := List.length_erase_of_mem huq
                have hpos : 1 ≤ st.queue.length := List.length_pos_of_mem huq
                omega
              exact ih _ inv' hlen'


/-- Lower bound at exit: in any exit state the recorded distance of the
destination is below the weight of every accepted walk from a finite
vertex, shifted by that vertex's distance. -/
theorem exit_lower_bound {g : NavigationGraph} {acc : NavGraphEdge → Bool}
    {startId endId : String} {V : List String} {st : DState}
    (hClosed : EdgesClosed g) (hNonneg : NonnegWeights g)
    (hVids : ∀ x, x ∈ nodeIds g → x ∈ V)
    (inv : LoopInv g acc startId V st) :
    ∀ {u : String} {es : List NavGraphEdge}, AccWalk g acc u endId es →
      ExitCond endId st → u ∈ V → st.dist u ≠ ⊤ →
      st.dist endId ≤ st.dist u + (walkWeight es : WithTop ℚ) := by
  intro u es h
  induction h with
  | nil w =>
      intro _ _ _
      simp
  | @cons u v w e es hS he ha ht hrest ih =>
      intro hexit huV hufin
      by_cases huq : u ∈ st.queue
      · -- still queued at exit: only the destination-was-popped case is live
        rcases hexit with hnil | htop | ⟨hem, hefin, hemin⟩
        · rw [hnil] at huq; cases huq
        · exact absurd (htop u huq) hufin
        · have h1 : st.dist w ≤ st.dist u := hemin u huq
          have hW : 0 ≤ walkWeight (e :: es) :=
            AccWalk.weight_nonneg hNonneg (SWalk.cons hS he ha ht hrest)
          have hW' : (0 : WithTop ℚ) ≤ (walkWeight (e :: es) : WithTop ℚ) := by
            exact_mod_cast hW
          exact le_trans h1 (le_add_of_nonneg_right hW')
      · -- settled: step along the relaxed edge
        have hset : Settled V st.queue u := ⟨huV, huq⟩
        have hrel : st.dist e.to' ≤ st.dist u + (e.weight : WithTop ℚ) :=
          inv.relaxed u hset e he ha
        have hvV : v ∈ V := ht ▸ hVids _ (hClosed u e he).2.2
        have hvfin : st.dist v ≠ ⊤ := by
          rw [← ht]
          intro htop
          rw [htop] at hrel
          exact absurd (top_le_iff.mp hrel)
            (WithTop.add_ne_top.mpr ⟨hufin, WithTop.coe_ne_top⟩)
        have hih := ih hexit hvV hvfin
        calc st.dist w
            ≤ st.dist v + (walkWeight es : WithTop ℚ) := hih
          _ ≤ (st.dist u + (e.weight : WithTop ℚ)) + (walkWeight es : WithTop ℚ) := by
              rw [← ht] at *
              exact add_le_add_right hrel _
          _ = st.dist u + (walkWeight (e :: es) : WithTop ℚ) := by
              rw [walkWeight_cons, add_assoc]
              norm_cast

/-- The invariant holds of the solver's initial state. -/
theorem LoopInv.init {g : NavigationGraph} {acc : NavGraphEdge → Bool}
    {startId : String} {V : List String}
    (hVstart : startId ∈ V) :
    LoopInv g acc startId V
      ⟨V, fun k => if k = startId then (0 : WithTop ℚ) else ⊤, fun _ => none⟩ := by
  refine ⟨List.Sublist.refl V, by simp, rfl, ?_, ?_, ?_, ?_, ?_, ?_, ?_, ?_, ?_⟩
  · intro v
    by_cases h : v = startId <;> simp [h]
  · intro v hv
    have : v ≠ startId := fun h => hv (h ▸ hVstart)
    simp [this]
  · intro v hv
    by_cases h : v = startId
    · subst h
      exact ⟨[], SWalk.nil _, by simp⟩
    · simp only [if_neg h] at hv
      exact absurd rfl hv
  · intro v w hw
    cases hw
  · intro v hv
    by_cases h : v = startId
    · exact Or.inl h
    · simp only [if_neg h] at hv
      exact absurd rfl hv
  · intro v hv
    by_cases h : v = startId
    · subst h
      refine ⟨0, Chain.base, ?_⟩
      simp [hVstart]
    · simp only [if_neg h] at hv
      exact absurd rfl hv
  · intro s hs
    exact absurd hs.1 hs.2
  · intro s hs
    exact absurd hs.1 hs.2
  · intro s hs
    exact absurd hs.1 hs.2

theorem backtrack_ne_nil (p : String → Option String) (fuel : Nat) (v : String) :
    backtrack p fuel v ≠ [] := by
  cases fuel with
  | zero => simp [backtrack]
  | succ fuel =>
      simp only [backtrack]
      cases p v with
      | none => simp
      | some w =>
          by_cases h : w = ""
          · simp [h]
          · simp [h]

theorem backtrack_getLast (p : String → Option String) (fuel : Nat) (v : String) :
    (backtrack p fuel v).getLast? = some v := by
  cases fuel with
  | zero => simp [backtrack]
  | succ fuel =>
      simp only [backtrack]
      cases p v with
      | none => simp
      | some w =>
          by_cases h : w = ""
          · simp [h]
          · simp [h, List.getLast?_append]

theorem linkedByPrev_append_singleton {p : String → Option String}
    {l : List String} {a b : String}
    (hl : linkedByPrev p l) (hlast : l.getLast? = some a) (hb : p b = some a) :
    linkedByPrev p (l ++ [b]) := by
  induction l with
  | nil => simp at hlast
  | cons x l ih =>
      cases l with
      | nil =>
          simp at hlast
          subst hlast
          exact ⟨hb, trivial⟩
      | cons y l =>
          obtain ⟨h1, h2⟩ := hl
          have hlast' : (y :: l).getLast? = some a := by
            simpa [List.getLast?_cons_cons] using hlast
          exact ⟨h1, ih h2 hlast'⟩

theorem backtrack_linked (p : String → Option String) :
    ∀ (fuel : Nat) (v : String), linkedByPrev p (backtrack p fuel v) := by
  intro fuel
  induction fuel with
  | zero => intro v; simp [backtrack, linkedByPrev]
  | succ fuel ih =>
      intro v
      simp only [backtrack]
      cases hp : p v with
      | none => simp [linkedByPrev]
      | some w =>
          by_cases h : w = ""
          · simp [h, linkedByPrev]
          · simp only [if_neg h]
            exact linkedByPrev_append_singleton (ih w) (backtrack_getLast p fuel w) hp

/-- Under an intact predecessor chain (no empty-string predecessor), the
reconstruction reaches the start of the chain. -/
theorem backtrack_head_of_chain {p : String → Option String} {startId : String}
    (hnone : p startId = none) (hne : ∀ x w, p x = some w → w ≠ "") :
    ∀ {n : Nat} {v : String} (fuel : Nat), Chain p startId v n → n ≤ fuel →
      (backtrack p fuel v).head? = some startId := by
  intro n v fuel hc
  induction hc generalizing fuel with
  | base =>
      intro _
      cases fuel with
      | zero => simp [backtrack]
      | succ fuel => simp [backtrack, hnone]
  | @step v' u n' hp _ ih =>
      intro hle
      cases fuel with
      | zero => omega
      | succ fuel =>
          simp only [backtrack, hp]
          have hw : u ≠ "" := hne _ _ hp
          simp only [if_neg hw]
          have hh := ih fuel (by omega)
          rw [List.head?_append, hh]
          rfl


/-- Telescoping the `previous`-linked list: its realizing edge list sums
to the distance difference of its endpoints. -/
theorem linked_telescope {g : NavigationGraph} {acc : NavGraphEdge → Bool}
    {startId : String} {V : List String} {st : DState}
    (inv : LoopInv g acc startId V st) :
    ∀ (l : List String) (h0 hl : String), linkedByPrev st.prev l →
      l.head? = some h0 → l.getLast? = some hl →
      ∃ es, ListLinks g acc l es ∧
        st.dist hl = st.dist h0 + (walkWeight es : WithTop ℚ) := by
  intro l
  induction l with
  | nil => intro h0 hl _ hh; simp at hh
  | cons a l ih =>
      intro h0 hl hlink hh hlast
      simp only [List.head?_cons, Option.some.injEq] at hh
      subst hh
      cases l with
      | nil =>
          simp only [List.getLast?_singleton, Option.some.injEq] at hlast
          subst hlast
          exact ⟨[], ListLinks.single _, by simp⟩
      | cons b rest =>
          obtain ⟨hpb, hlink'⟩ := hlink
          have hlast' : (b :: rest).getLast? = some hl := by
            simpa [List.getLast?_cons_cons] using hlast
          obtain ⟨es, hlinks, heq⟩ := ih b hl hlink' rfl hlast'
          obtain ⟨hset, hfin, e, he, ha, ht, hde⟩ := inv.prev_spec b a hpb
          refine ⟨e :: es, ListLinks.cons he ha ht hlinks, ?_⟩
          rw [heq, hde, walkWeight_cons, add_assoc]
          norm_cast

theorem lastNode?_foldl (x : String) :
    ∀ (l : List NavGraphNode) (acc : Option NavGraphNode),
      ((l.foldl (fun acc n => if n.id = x then some n else acc) acc) = none ↔
        acc = none ∧ ∀ n ∈ l, n.id ≠ x) ∧
      (∀ m, l.foldl (fun acc n => if n.id = x then some n else acc) acc = some m →
        (m ∈ l ∧ m.id = x) ∨ acc = some m) := by
  intro l
  induction l with
  | nil => intro acc; simp
  | cons a l ih =>
      intro acc
      simp only [List.foldl_cons]
      by_cases ha : a.id = x
      · obtain ⟨h1, h2⟩ := ih (some a)
        simp only [if_pos ha]
        constructor
        · rw [h1]
          simp [ha]
        · intro m hm
          rcases h2 m hm with ⟨hml, hmx⟩ | hacc
          · exact Or.inl ⟨List.mem_cons_of_mem _ hml, hmx⟩
          · rcases Option.some.injEq _ _ ▸ hacc with rfl
            exact Or.inl ⟨List.mem_cons_self _ _, ha⟩
      · obtain ⟨h1, h2⟩ := ih acc
        simp only [if_neg ha]
        constructor
        · rw [h1]
          simp only [List.mem_cons]
          constructor
          · rintro ⟨hacc, hall⟩
            refine ⟨hacc, fun n hn => ?_⟩
            rcases hn with rfl | hn
            · exact ha
            · exact hall n hn
          · rintro ⟨hacc, hall⟩
            exact ⟨hacc, fun n hn => hall n (Or.inr hn)⟩
        · intro m hm
          rcases h2 m hm with ⟨hml, hmx⟩ | hacc
          · exact Or.inl ⟨List.mem_cons_of_mem _ hml, hmx⟩
          · exact Or.inr hacc

theorem lastNode?_eq_none_iff {g : NavigationGraph} {x : String} :
    lastNode? g x = none ↔ x ∉ nodeIds g := by
  rw [show lastNode? g x =
    g.nodes.foldl (fun acc n => if n.id = x then some n else acc) none from rfl]
  rw [(lastNode?_foldl x g.nodes none).1]
  simp only [true_and, nodeIds, List.mem_map]
  constructor
  · rintro h ⟨n, hn, rfl⟩
    exact h n hn rfl
  · intro h n hn hx
    exact h ⟨n, hn, hx⟩

theorem lastNode?_isSome_iff {g : NavigationGraph} {x : String} :
    (lastNode? g x).isSome ↔ x ∈ nodeIds g := by
  rw [← not_iff_not]
  simp only [Option.not_isSome_iff_eq_none]
  exact lastNode?_eq_none_iff

theorem lastNode?_mem {g : NavigationGraph} {x : String} {n : NavGraphNode}
    (h : lastNode? g x = some n) : n ∈ g.nodes ∧ n.id = x := by
  have := (lastNode?_foldl x g.nodes none).2 n h
  rcases this with h' | h'
  · exact h'
  · cases h'

/-- The Dijkstra state in which `getPath` ends, once past its guards. -/
def dijkstraFinal (g : NavigationGraph) (f : AccessibilityFilter) (s e : String) :
    DState :=
  dijkstraLoop g (acceptEdge g f) e
    (dedupFirst (g.nodes.map NavGraphNode.id)).length
    ⟨dedupFirst (g.nodes.map NavGraphNode.id),
      fun k => if k = s then (0 : WithTop ℚ) else ⊤, fun _ => none⟩

theorem dijkstraFinal_spec {g : NavigationGraph} {f : AccessibilityFilter}
    {s e : String} (hClosed : EdgesClosed g) (hNonneg : NonnegWeights g)
    (hs : s ∈ nodeIds g) :
    LoopInv g (acceptEdge g f) s (dedupFirst (nodeIds g)) (dijkstraFinal g f s e) ∧
      ExitCond e (dijkstraFinal g f s e) := by
  have hV : (dedupFirst (nodeIds g)).Nodup := dedupFirst_nodup _
  have hVids : ∀ x, x ∈ nodeIds g → x ∈ dedupFirst (nodeIds g) :=
    fun x hx => mem_dedupFirst.mpr hx
  exact dijkstraLoop_spec hClosed hNonneg hV hVids _ _
    (LoopInv.init (hVids s hs)) (le_refl _)

/-- Unfolding `getPath` past its guards: the reconstruction branch
always returns a nonempty path. -/
theorem getPath_eq_final {g : NavigationGraph} {s e : String}
    {f : AccessibilityFilter}
    (hs : s ∈ nodeIds g) (he : e ∈ nodeIds g) (hse : s ≠ "") (hee : e ≠ "") :
    getPath g s e f =
      if (dijkstraFinal g f s e).dist e = ⊤ then none
      else some (backtrack (dijkstraFinal g f s e).prev g.nodes.length e) := by
  have hsn : ¬ (lastNode? g s).isNone = true := by
    rw [Option.isNone_iff_eq_none, lastNode?_eq_none_iff]
    exact fun h => h hs
  have hen : ¬ (lastNode? g e).isNone = true := by
    rw [Option.isNone_iff_eq_none, lastNode?_eq_none_iff]
    exact fun h => h he
  simp only [getPath]
  rw [if_neg (by push_neg; exact ⟨hse, hee⟩)]
  rw [if_neg (not_or.mpr ⟨hsn, hen⟩)]
  unfold dijkstraFinal
  split_ifs with h1 h2
  · rfl
  · rfl
  · exact absurd (List.length_pos.mpr (backtrack_ne_nil _ _ _)) h2


theorem getPath_some_guards {g : NavigationGraph} {s e : String}
    {f : AccessibilityFilter} {l : List String}
    (h : getPath g s e f = some l) :
    s ≠ "" ∧ e ≠ "" ∧ s ∈ nodeIds g ∧ e ∈ nodeIds g := by
  by_cases h1 : s = "" ∨ e = ""
  · rw [getPath, if_pos h1] at h; cases h
  · by_cases h2 : (lastNode? g s).isNone = true ∨ (lastNode? g e).isNone = true
    · rw [getPath, if_neg h1, if_pos h2] at h; cases h
    · push_neg at h1 h2
      have hs' : s ∈ nodeIds g := by
        by_contra hc
        have hnone : lastNode? g s = none := lastNode?_eq_none_iff.mpr hc
        exact h2.1 (by simp [hnone])
      have he' : e ∈ nodeIds g := by
        by_contra hc
        have hnone : lastNode? g e = none := lastNode?_eq_none_iff.mpr hc
        exact h2.2 (by simp [hnone])
      exact ⟨h1.1, h1.2, hs', he'⟩

/-- A successful `getPath` result is nonempty, ends at the destination,
and its consecutive pairs are joined by filter-accepted edges.  (No
assumption on node ids: this holds even when a falsy empty-string id
truncates the reconstruction.) -/
theorem getPath_some_linked {g : NavigationGraph} {s e : String}
    {f : AccessibilityFilter} {l : List String}
    (hClosed : EdgesClosed g) (hNonneg : NonnegWeights g)
    (h : getPath g s e f = some l) :
    l ≠ [] ∧ l.getLast? = some e ∧
      ∃ es, ListLinks g (acceptEdge g f) l es := by
  obtain ⟨hse, hee, hs, he⟩ := getPath_some_guards h
  obtain ⟨inv, _hexit⟩ := dijkstraFinal_spec (f := f) (e := e) hClosed hNonneg hs
  rw [getPath_eq_final hs he hse hee] at h
  by_cases htop : (dijkstraFinal g f s e).dist e = ⊤
  · rw [if_pos htop] at h; cases h
  · rw [if_neg htop] at h
    have hl : l = backtrack (dijkstraFinal g f s e).prev g.nodes.length e :=
      (Option.some.injEq _ _ ▸ h).symm
    subst hl
    refine ⟨backtrack_ne_nil _ _ _, backtrack_getLast _ _ _, ?_⟩
    have hlinked := backtrack_linked (dijkstraFinal g f s e).prev g.nodes.length e
    rcases hbt : backtrack (dijkstraFinal g f s e).prev g.nodes.length e with
      _ | ⟨a, tl⟩
    · exact absurd hbt (backtrack_ne_nil _ _ _)
    · have hlast := backtrack_getLast (dijkstraFinal g f s e).prev g.nodes.length e
      rw [hbt] at hlinked hlast
      obtain ⟨es, hes, _⟩ := linked_telescope inv (a :: tl) a e hlinked rfl hlast
      exact ⟨es, hes⟩

/-- A successful `getPath` on a graph without empty-string node ids
starts at the source, ends at the destination, and realizes the
minimum total weight over all filter-accepted walks. -/
theorem getPath_some_opt {g : NavigationGraph} {s e : String}
    {f : AccessibilityFilter} {l : List String}
    (hClosed : EdgesClosed g) (hNonneg : NonnegWeights g)
    (hids : "" ∉ nodeIds g)
    (h : getPath g s e f = some l) :
    l.head? = some s ∧ l.getLast? = some e ∧
      ∃ es, ListLinks g (acceptEdge g f) l es ∧
        AccWalk g (acceptEdge g f) s e es ∧
        ∀ es', AccWalk g (acceptEdge g f) s e es' →
          walkWeight es ≤ walkWeight es' := by
  obtain ⟨hse, hee, hs, he⟩ := getPath_some_guards h
  obtain ⟨inv, hexit⟩ := dijkstraFinal_spec (f := f) (e := e) hClosed hNonneg hs
  rw [getPath_eq_final hs he hse hee] at h
  by_cases htop : (dijkstraFinal g f s e).dist e = ⊤
  · rw [if_pos htop] at h; cases h
  · rw [if_neg htop] at h
    have hl : l = backtrack (dijkstraFinal g f s e).prev g.nodes.length e :=
      (Option.some.injEq _ _ ▸ h).symm
    have hVids : ∀ x, x ∈ dedupFirst (nodeIds g) → x ∈ nodeIds g :=
      fun x hx => mem_dedupFirst.mp hx
    have hside : ∀ x w, (dijkstraFinal g f s e).prev x = some w → w ≠ "" := by
      intro x w hw hw0
      have hwV := (inv.prev_spec x w hw).1.1
      exact hids (hw0 ▸ hVids w hwV)
    obtain ⟨n, hchain, hbound⟩ := inv.chain e htop
    have hnle : n ≤ g.nodes.length := by
      have hVlen : (dedupFirst (nodeIds g)).length ≤ g.nodes.length := by
        have := dedupFirst_length_le (nodeIds g)
        simpa [nodeIds] using this
      by_cases hq : e ∈ (dijkstraFinal g f s e).queue
      · simp only [if_pos hq] at hbound
        have : 1 ≤ (dijkstraFinal g f s e).queue.length := List.length_pos_of_mem hq
        omega
      · simp only [if_neg hq] at hbound
        omega
    have hhead : l.head? = some s := by
      rw [hl]
      exact backtrack_head_of_chain inv.start_prev hside g.nodes.length hchain hnle
    have hlast : l.getLast? = some e := by
      rw [hl]; exact backtrack_getLast _ _ _
    have hlinked : linkedByPrev (dijkstraFinal g f s e).prev l := by
      rw [hl]; exact backtrack_linked _ _ _
    obtain ⟨es, hlinks, heq⟩ := linked_telescope inv l s e hlinked hhead hlast
    rw [inv.start_dist, zero_add] at heq
    refine ⟨hhead, hlast, es, hlinks, hlinks.toWalk hhead hlast, ?_⟩
    intro es' hes'
    have hlb := exit_lower_bound hClosed hNonneg
      (fun x hx => mem_dedupFirst.mpr hx) inv hes' hexit
      (mem_dedupFirst.mpr hs) (by rw [inv.start_dist]; simp)
    rw [inv.start_dist, zero_add, heq] at hlb
    exact_mod_cast hlb

/-- `getPath` returns `null` exactly on a missing endpoint or an
unreachable destination (graphs without empty-string ids). -/
theorem getPath_none_iff {g : NavigationGraph} {s e : String}
    {f : AccessibilityFilter}
    (hClosed : EdgesClosed g) (hNonneg : NonnegWeights g)
    (hids : "" ∉ nodeIds g) :
    getPath g s e f = none ↔
      s ∉ nodeIds g ∨ e ∉ nodeIds g ∨ ¬ Reach g (acceptEdge g f) s e := by
  by_cases hs : s ∈ nodeIds g
  · by_cases he : e ∈ nodeIds g
    · have hse : s ≠ "" := fun h0 => hids (h0 ▸ hs)
      have hee : e ≠ "" := fun h0 => hids (h0 ▸ he)
      obtain ⟨inv, hexit⟩ := dijkstraFinal_spec (f := f) (e := e) hClosed hNonneg hs
      rw [getPath_eq_final hs he hse hee]
      constructor
      · intro hnone
        by_cases htop : (dijkstraFinal g f s e).dist e = ⊤
        · refine Or.inr (Or.inr ?_)
          rintro ⟨es, hwalk⟩
          have hlb := exit_lower_bound hClosed hNonneg
            (fun x hx => mem_dedupFirst.mpr hx) inv hwalk hexit
            (mem_dedupFirst.mpr hs) (by rw [inv.start_dist]; simp)
          rw [inv.start_dist, zero_add, htop] at hlb
          exact absurd (top_le_iff.mp hlb) WithTop.coe_ne_top
        · rw [if_neg htop] at hnone; cases hnone
      · intro hr
        rcases hr with hr | hr | hr
        · exact absurd hs hr
        · exact absurd he hr
        · by_cases htop : (dijkstraFinal g f s e).dist e = ⊤
          · rw [if_pos htop]
          · obtain ⟨es, hwalk, _⟩ := inv.sound e htop
            exact absurd ⟨es, hwalk.toAccWalk⟩ hr
    · have : getPath g s e f = none := by
        by_cases h1 : s = "" ∨ e = ""
        · rw [getPath, if_pos h1]
        · rw [getPath, if_neg h1, if_pos ?_]
          exact Or.inr (by rw [Option.isNone_iff_eq_none, lastNode?_eq_none_iff]; exact he)
      simp [this, he]
  · have : getPath g s e f = none := by
      by_cases h1 : s = "" ∨ e = ""
      · rw [getPath, if_pos h1]
      · rw [getPath, if_neg h1, if_pos ?_]
        exact Or.inl (by rw [Option.isNone_iff_eq_none, lastNode?_eq_none_iff]; exact hs)
    simp [this, hs]


/-! ## Builder lemmas -/

/-- The mirrored adjacency entry stored by `addEdge`. -/
def mirrorEdge (e : NavGraphEdge) : NavGraphEdge :=
  ⟨e.to', e.from', e.weight, e.type⟩

theorem mem_pushEdge {m : String → List NavGraphEdge} {k x : String}
    {e e' : NavGraphEdge} :
    e' ∈ pushEdge m k e x ↔ e' ∈ m x ∨ (x = k ∧ e' = e) := by
  by_cases h : x = k
  · subst h
    simp [pushEdge]
  · simp [pushEdge, h]

theorem mem_addEdge {m : String → List NavGraphEdge} {a b x : String}
    {w : ℚ} {t : EdgeType} {e' : NavGraphEdge} :
    e' ∈ addEdge m a b w t x ↔ e' ∈ m x ∨
      (x = a ∧ e' = ⟨a, b, w, t⟩) ∨ (x = b ∧ e' = ⟨b, a, w, t⟩) := by
  simp only [addEdge, mem_pushEdge]
  tauto

theorem addEdge_mono {m : String → List NavGraphEdge} {a b x : String}
    {w : ℚ} {t : EdgeType} {e' : NavGraphEdge} (h : e' ∈ m x) :
    e' ∈ addEdge m a b w t x :=
  mem_addEdge.mpr (Or.inl h)

/-- Side conditions on the traversable units under which doorway-node
ids resolve unambiguously: unit ids are pairwise distinct, no unit id
collides with a generated doorway id, and doorway ids are injective on
unordered id pairs. -/
def DoorIdsOk (tus : List Unit) : Prop :=
  (tus.map Unit.id).Nodup ∧
  (∀ u ∈ tus, ∀ a ∈ tus, ∀ b ∈ tus, u.id ≠ doorNodeId a.id b.id) ∧
  (∀ a ∈ tus, ∀ b ∈ tus, ∀ c ∈ tus, ∀ d ∈ tus,
    doorNodeId a.id b.id = doorNodeId c.id d.id →
      (a.id = c.id ∧ b.id = d.id) ∨ (a.id = d.id ∧ b.id = c.id))

/-- The property bundle maintained through graph construction.  The
last three fields are conditional on side hypotheses (nonnegative
distances, distinct unit ids, unambiguous doorway ids). -/
structure BInvU (dist : Point → Point → ℚ) (tus : List Unit) (st : BuildState) :
    Prop where
  centers : ∀ u ∈ tus, centerNode u ∈ st.nodes
  nodesOk : ∀ n ∈ st.nodes, (∃ u ∈ tus, n = centerNode u) ∨
    (n.type = NodeType.waypoint ∧ ∃ a b : Unit, a ∈ tus ∧ b ∈ tus ∧
      a.levelId = b.levelId ∧ n.id = doorNodeId a.id b.id ∧ n.levelId = a.levelId)
  wayIds : st.nodes.Pairwise
    (fun m n => m.type = NodeType.waypoint → n.type = NodeType.waypoint → m.id ≠ n.id)
  mirror : ∀ x e, e ∈ st.edges x → e.from' = x ∧ mirrorEdge e ∈ st.edges e.to'
  closed : ∀ x e, e ∈ st.edges x →
    (∃ n ∈ st.nodes, n.id = x) ∧ (∃ n ∈ st.nodes, n.id = e.to')
  noVertical : ∀ x e, e ∈ st.edges x → e.type = EdgeType.horizontal
  wnonneg : (∀ p q, 0 ≤ dist p q) → ∀ x e, e ∈ st.edges x → 0 ≤ e.weight
  idsNodup : (tus.map Unit.id).Nodup → (st.nodes.map NavGraphNode.id).Nodup
  hLevel : DoorIdsOk tus → ∀ x e, e ∈ st.edges x → e.type = EdgeType.horizontal →
    ∃ n1 ∈ st.nodes, ∃ n2 ∈ st.nodes,
      n1.id = e.from' ∧ n2.id = e.to' ∧ n1.levelId = n2.levelId

theorem BInvU.addEdge_pres {dist : Point → Point → ℚ} {tus : List Unit}
    {st : BuildState} (inv : BInvU dist tus st) {a b : String} {w : ℚ}
    (hna : ∃ n ∈ st.nodes, n.id = a) (hnb : ∃ n ∈ st.nodes, n.id = b)
    (hwn : (∀ p q, 0 ≤ dist p q) → 0 ≤ w)
    (hlv : DoorIdsOk tus → ∃ n1 ∈ st.nodes, ∃ n2 ∈ st.nodes,
      n1.id = a ∧ n2.id = b ∧ n1.levelId = n2.levelId) :
    BInvU dist tus ⟨st.nodes, addEdge st.edges a b w EdgeType.horizontal⟩ := by
  refine ⟨inv.centers, inv.nodesOk, inv.wayIds, ?_, ?_, ?_, ?_, inv.idsNodup, ?_⟩
  · intro x e he
    rcases mem_addEdge.mp he with h | ⟨rfl, rfl⟩ | ⟨rfl, rfl⟩
    · obtain ⟨h1, h2⟩ := inv.mirror x e h
      exact ⟨h1, addEdge_mono h2⟩
    · exact ⟨rfl, mem_addEdge.mpr (Or.inr (Or.inr ⟨rfl, rfl⟩))⟩
    · exact ⟨rfl, mem_addEdge.mpr (Or.inr (Or.inl ⟨rfl, rfl⟩))⟩
  · intro x e he
    rcases mem_addEdge.mp he with h | ⟨rfl, rfl⟩ | ⟨rfl, rfl⟩
    · exact inv.closed x e h
    · exact ⟨hna, hnb⟩
    · exact ⟨hnb, hna⟩
  · intro x e he
    rcases mem_addEdge.mp he with h | ⟨rfl, rfl⟩ | ⟨rfl, rfl⟩
    · exact inv.noVertical x e h
    · rfl
    · rfl
  · intro hd x e he
    rcases mem_addEdge.mp he with h | ⟨rfl, rfl⟩ | ⟨rfl, rfl⟩
    · exact inv.wnonneg hd x e h
    · exact hwn hd
    · exact hwn hd
  · intro hids x e he ht
    rcases mem_addEdge.mp he with h | ⟨rfl, rfl⟩ | ⟨rfl, rfl⟩
    · exact inv.hLevel hids x e h ht
    · obtain ⟨n1, hn1, n2, hn2, h1, h2, h3⟩ := hlv hids
      exact ⟨n1, hn1, n2, hn2, h1, h2, h3⟩
    · obtain ⟨n1, hn1, n2, hn2, h1, h2, h3⟩ := hlv hids
      exact ⟨n2, hn2, n1, hn1, h2, h1, h3.symm⟩

/-- Under unambiguous doorway ids, any node already carrying a doorway
id for the pair `(unitA, unitB)` sits on their common level. -/
theorem BInvU.door_level {dist : Point → Point → ℚ} {tus : List Unit}
    {st : BuildState} (inv : BInvU dist tus st) (hids : DoorIdsOk tus)
    {unitA unitB : Unit} (ha : unitA ∈ tus) (hb : unitB ∈ tus)
    (hlev : unitA.levelId = unitB.levelId) {nd : NavGraphNode}
    (hnd : nd ∈ st.nodes) (hndid : nd.id = doorNodeId unitA.id unitB.id) :
    nd.levelId = unitA.levelId := by
  rcases inv.nodesOk nd hnd with ⟨u, hu, rfl⟩ | ⟨_, a, b, haa, hbb, hab, hid, hlv⟩
  · exact absurd hndid (hids.2.1 u hu unitA ha unitB hb)
  · rw [hid] at hndid
    have hinj := List.inj_on_of_nodup_map hids.1
    rcases hids.2.2 a haa b hbb unitA ha unitB hb hndid with ⟨h1, _⟩ | ⟨h1, h2⟩
    · rw [hlv, hinj haa ha h1]
    · rw [hlv, hinj haa hb h1, ← hlev]

theorem BInvU.processPair_pres {dist : Point → Point → ℚ} {tus : List Unit}
    {st : BuildState} (inv : BInvU dist tus st) {unitA unitB : Unit}
    (ha : unitA ∈ tus) (hb : unitB ∈ tus) :
    BInvU dist tus (processPair dist st unitA unitB) := by
  rw [processPair]
  by_cases hlev : unitA.levelId ≠ unitB.levelId
  · rw [if_pos hlev]; exact inv
  · rw [if_neg hlev]
    push_neg at hlev
    split
    · exact inv
    · rename_i sharedEdge hshared
      dsimp only
      by_cases htr : (isTransit unitA.type && isTransit unitB.type) = true
      · rw [if_pos htr]
        exact inv.addEdge_pres
          ⟨centerNode unitA, inv.centers _ ha, rfl⟩
          ⟨centerNode unitB, inv.centers _ hb, rfl⟩
          (fun hd => hd _ _)
          (fun _ => ⟨centerNode unitA, inv.centers _ ha,
            centerNode unitB, inv.centers _ hb, rfl, rfl, hlev⟩)
      · rw [if_neg htr]
        set doorMidpoint : Point :=
          ⟨(sharedEdge.1.x + sharedEdge.2.x) / 2,
           (sharedEdge.1.y + sharedEdge.2.y) / 2⟩ with hmid
        set doorId := doorNodeId unitA.id unitB.id with hdoorId
        by_cases hex : st.nodes.any (fun n => n.id = doorId) = true
        · -- door node already present
          rw [if_pos hex]
          obtain ⟨nd, hnd, hndid⟩ := by
            simpa [List.any_eq_true] using hex
          have hdlev : ∀ _ : DoorIdsOk tus, nd.levelId = unitA.levelId :=
            fun hids => inv.door_level hids ha hb hlev hnd hndid
          have inv1 := inv.addEdge_pres (a := unitA.id) (b := doorId)
            (w := dist (getPolygonCenter unitA.polygon) doorMidpoint)
            ⟨centerNode unitA, inv.centers _ ha, rfl⟩ ⟨nd, hnd, hndid⟩
            (fun hd => hd _ _)
            (fun hids => ⟨centerNode unitA, inv.centers _ ha, nd, hnd,
              rfl, hndid, (hdlev hids).symm⟩)
          exact BInvU.addEdge_pres inv1 ⟨nd, hnd, hndid⟩
            ⟨centerNode unitB, inv.centers _ hb, rfl⟩
            (fun hd => hd _ _)
            (fun hids => ⟨nd, hnd, centerNode unitB, inv.centers _ hb,
              hndid, rfl, (hdlev hids).trans hlev⟩)
        · -- push the door node, then the two edges
          rw [if_neg hex]
          have hexn : ∀ n ∈ st.nodes, n.id ≠ doorId := by
            intro n hn hc
            rw [List.any_eq_true] at hex
            exact hex ⟨n, hn, by simp [hc]⟩
          set newDoor : NavGraphNode :=
            ⟨doorId, NodeType.waypoint, doorMidpoint, unitA.levelId,
              (if isTransit unitA.type then unitB.id else unitA.id), none⟩
            with hnewDoor
          have hnodes : BInvU dist tus ⟨st.nodes ++ [newDoor], st.edges⟩ := by
            refine ⟨fun u hu => List.mem_append_left _ (inv.centers u hu), ?_, ?_,
              inv.mirror, ?_, inv.noVertical, inv.wnonneg, ?_, ?_⟩
            · intro n hn
              rcases List.mem_append.mp hn with hn | hn
              · exact inv.nodesOk n hn
              · rcases List.mem_singleton.mp hn with rfl
                exact Or.inr ⟨rfl, unitA, unitB, ha, hb, hlev, rfl, rfl⟩
            · rw [List.pairwise_append]
              refine ⟨inv.wayIds, List.pairwise_singleton _ _, ?_⟩
              intro n hn n' hn' _ _
              rcases List.mem_singleton.mp hn' with rfl
              exact hexn n hn
            · intro x e he
              obtain ⟨h1, h2⟩ := inv.closed x e he
              exact ⟨⟨h1.choose, List.mem_append_left _ h1.choose_spec.1,
                  h1.choose_spec.2⟩,
                ⟨h2.choose, List.mem_append_left _ h2.choose_spec.1,
                  h2.choose_spec.2⟩⟩
            · intro hn
              rw [List.map_append, List.nodup_append]
              refine ⟨inv.idsNodup hn, List.nodup_singleton _, ?_⟩
              intro x hx hx2
              obtain ⟨n, hnmem, rfl⟩ := List.mem_map.mp hx
              rcases List.mem_singleton.mp (by simpa using hx2) with h
              exact hexn n hnmem h
            · intro hids x e he ht
              obtain ⟨n1, hn1, n2, hn2, h1, h2, h3⟩ := inv.hLevel hids x e he ht
              exact ⟨n1, List.mem_append_left _ hn1,
                n2, List.mem_append_left _ hn2, h1, h2, h3⟩
          have hdmem : newDoor ∈ st.nodes ++ [newDoor] :=
            List.mem_append_right _ (List.mem_singleton_self _)
          have inv1 := hnodes.addEdge_pres (a := unitA.id) (b := doorId)
            (w := dist (getPolygonCenter unitA.polygon) doorMidpoint)
            ⟨centerNode unitA,
              List.mem_append_left _ (inv.centers _ ha), rfl⟩
            ⟨newDoor, hdmem, rfl⟩
            (fun hd => hd _ _)
            (fun _ => ⟨centerNode unitA,
              List.mem_append_left _ (inv.centers _ ha),
              newDoor, hdmem, rfl, rfl, rfl⟩)
          exact BInvU.addEdge_pres inv1 ⟨newDoor, hdmem, rfl⟩
            ⟨centerNode unitB, List.mem_append_left _ (inv.centers _ hb), rfl⟩
            (fun hd => hd _ _)
            (fun _ => ⟨newDoor, hdmem,
              centerNode unitB, List.mem_append_left _ (inv.centers _ hb),
              rfl, rfl, hlev⟩)

theorem BInvU.pairLoop_pres {dist : Point → Point → ℚ} {tus : List Unit} :
    ∀ (l : List Unit) (st : BuildState), (∀ b ∈ l, b ∈ tus) →
      BInvU dist tus st → BInvU dist tus (pairLoop dist l st) := by
  intro l
  induction l with
  | nil => intro st _ inv; exact inv
  | cons a rest ih =>
      intro st hmem inv
      rw [pairLoop]
      refine ih _ (fun b hb => hmem b (List.mem_cons_of_mem _ hb)) ?_
      have ha : a ∈ tus := hmem a (List.mem_cons_self _ _)
      refine List.foldlRecOn rest _ st inv ?_
      intro st' hst' b hb
      exact hst'.processPair_pres ha (hmem b (List.mem_cons_of_mem _ hb))

theorem BInvU.initial {dist : Point → Point → ℚ} {tus : List Unit} :
    BInvU dist tus ⟨tus.map centerNode, fun _ => []⟩ := by
  refine ⟨fun u hu => List.mem_map_of_mem _ hu, ?_, ?_, ?_, ?_, ?_, ?_, ?_, ?_⟩
  · intro n hn
    obtain ⟨u, hu, rfl⟩ := List.mem_map.mp hn
    exact Or.inl ⟨u, hu, rfl⟩
  · rw [List.pairwise_map]
    exact List.pairwise_of_forall fun a b hw _ => absurd hw (by simp [centerNode])
  · intro x e he; cases he
  · intro x e he; cases he
  · intro x e he; cases he
  · intro _ x e he; cases he
  · intro hn
    have : (tus.map centerNode).map NavGraphNode.id = tus.map Unit.id := by
      rw [List.map_map]; rfl
    rw [this]; exact hn
  · intro _ x e he; cases he


/-- Edge-map invariants for the vertical and fallback passes, over the
fixed node list produced by the pair pass. -/
structure EInv (dist : Point → Point → ℚ) (tus : List Unit)
    (nodes : List NavGraphNode) (m : String → List NavGraphEdge) : Prop where
  mirror : ∀ x e, e ∈ m x → e.from' = x ∧ mirrorEdge e ∈ m e.to'
  closed : ∀ x e, e ∈ m x →
    (∃ n ∈ nodes, n.id = x) ∧ (∃ n ∈ nodes, n.id = e.to')
  wnonneg : (∀ p q, 0 ≤ dist p q) → ∀ x e, e ∈ m x → 0 ≤ e.weight
  hLevel : DoorIdsOk tus → ∀ x e, e ∈ m x → e.type = EdgeType.horizontal →
    ∃ n1 ∈ nodes, ∃ n2 ∈ nodes,
      n1.id = e.from' ∧ n2.id = e.to' ∧ n1.levelId = n2.levelId

theorem BInvU.toEInv {dist : Point → Point → ℚ} {tus : List Unit}
    {st : BuildState} (inv : BInvU dist tus st) :
    EInv dist tus st.nodes st.edges :=
  ⟨inv.mirror, inv.closed, inv.wnonneg, inv.hLevel⟩

theorem EInv.addEdge_keeps {dist : Point → Point → ℚ} {tus : List Unit}
    {nodes : List NavGraphNode} {m : String → List NavGraphEdge}
    (inv : EInv dist tus nodes m) {a b : String} {w : ℚ} {t : EdgeType}
    (hna : ∃ n ∈ nodes, n.id = a) (hnb : ∃ n ∈ nodes, n.id = b)
    (hwn : (∀ p q, 0 ≤ dist p q) → 0 ≤ w)
    (hlv : t = EdgeType.horizontal → DoorIdsOk tus →
      ∃ n1 ∈ nodes, ∃ n2 ∈ nodes,
        n1.id = a ∧ n2.id = b ∧ n1.levelId = n2.levelId) :
    EInv dist tus nodes (addEdge m a b w t) := by
  refine ⟨?_, ?_, ?_, ?_⟩
  · intro x e he
    rcases mem_addEdge.mp he with h | ⟨rfl, rfl⟩ | ⟨rfl, rfl⟩
    · obtain ⟨h1, h2⟩ := inv.mirror x e h
      exact ⟨h1, addEdge_mono h2⟩
    · exact ⟨rfl, mem_addEdge.mpr (Or.inr (Or.inr ⟨rfl, rfl⟩))⟩
    · exact ⟨rfl, mem_addEdge.mpr (Or.inr (Or.inl ⟨rfl, rfl⟩))⟩
  · intro x e he
    rcases mem_addEdge.mp he with h | ⟨rfl, rfl⟩ | ⟨rfl, rfl⟩
    · exact inv.closed x e h
    · exact ⟨hna, hnb⟩
    · exact ⟨hnb, hna⟩
  · intro hd x e he
    rcases mem_addEdge.mp he with h | ⟨rfl, rfl⟩ | ⟨rfl, rfl⟩
    · exact inv.wnonneg hd x e h
    · exact hwn hd
    · exact hwn hd
  · intro hids x e he ht
    rcases mem_addEdge.mp he with h | ⟨rfl, rfl⟩ | ⟨rfl, rfl⟩
    · exact inv.hLevel hids x e h ht
    · obtain ⟨n1, hn1, n2, hn2, h1, h2, h3⟩ := hlv ht hids
      exact ⟨n1, hn1, n2, hn2, h1, h2, h3⟩
    · obtain ⟨n1, hn1, n2, hn2, h1, h2, h3⟩ := hlv ht hids
      exact ⟨n2, hn2, n1, hn1, h2, h1, h3.symm⟩

theorem mem_insertByKey {key : Unit → ℚ} {x y : Unit} :
    ∀ {l : List Unit}, y ∈ insertByKey key x l ↔ y = x ∨ y ∈ l := by
  intro l
  induction l with
  | nil => simp [insertByKey]
  | cons a l ih =>
      rw [insertByKey]
      by_cases h : key x < key a
      · simp [h, List.mem_cons]
      · simp only [if_neg h, List.mem_cons, ih]
        tauto

theorem mem_sortByKey {key : Unit → ℚ} {y : Unit} {l : List Unit} :
    y ∈ sortByKey key l ↔ y ∈ l := by
  have go : ∀ (l : List Unit) (acc : List Unit),
      y ∈ l.foldl (fun acc x => insertByKey key x acc) acc ↔ y ∈ acc ∨ y ∈ l := by
    intro l
    induction l with
    | nil => intro acc; simp
    | cons a l ih =>
        intro acc
        rw [List.foldl_cons, ih, mem_insertByKey]
        simp only [List.mem_cons]
        tauto
  rw [sortByKey, go l []]
  simp

/-- The zIndex-sorted members of one vertical-connector group. -/
def sortedGroup (data : CampusData) (tus : List Unit) (cid : String) : List Unit :=
  sortByKey (zKey data) (groupFor tus cid)

/-- The vertical edge weight for a consecutive group pair. -/
def vWeight (dist : Point → Point → ℚ) (ab : Unit × Unit) : ℚ :=
  dist (getPolygonCenter ab.1.polygon) (getPolygonCenter ab.2.polygon) +
    VERTICAL_PENALTY

/-- `e` is one of the two stored directions of the vertical edge for the
consecutive group pair `ab`, keyed at `x`. -/
def vMatch (dist : Point → Point → ℚ) (x : String) (e : NavGraphEdge)
    (ab : Unit × Unit) : Prop :=
  (x = ab.1.id ∧ e = ⟨ab.1.id, ab.2.id, vWeight dist ab, EdgeType.vertical⟩) ∨
  (x = ab.2.id ∧ e = ⟨ab.2.id, ab.1.id, vWeight dist ab, EdgeType.vertical⟩)

theorem groupFold_mem {dist : Point → Point → ℚ} {x : String} {e : NavGraphEdge} :
    ∀ (ps : List (Unit × Unit)) (m : String → List NavGraphEdge),
      e ∈ (ps.foldl (fun m1 ab => addEdge m1 ab.1.id ab.2.id
          (dist (getPolygonCenter ab.1.polygon) (getPolygonCenter ab.2.polygon) +
            VERTICAL_PENALTY) EdgeType.vertical) m) x ↔
        e ∈ m x ∨ ∃ ab ∈ ps, vMatch dist x e ab := by
  intro ps
  induction ps with
  | nil => intro m; simp
  | cons ab ps ih =>
      intro m
      rw [List.foldl_cons, ih, mem_addEdge]
      constructor
      · rintro ((h | h | h) | ⟨ab', hab', h⟩)
        · exact Or.inl h
        · exact Or.inr ⟨ab, List.mem_cons_self _ _, Or.inl h⟩
        · exact Or.inr ⟨ab, List.mem_cons_self _ _, Or.inr h⟩
        · exact Or.inr ⟨ab', List.mem_cons_of_mem _ hab', h⟩
      · rintro (h | ⟨ab', hab', h⟩)
        · exact Or.inl (Or.inl h)
        · rcases List.mem_cons.mp hab' with rfl | hab'
          · rcases h with h | h
            · exact Or.inl (Or.inr (Or.inl h))
            · exact Or.inl (Or.inr (Or.inr h))
          · exact Or.inr ⟨ab', hab', h⟩

theorem verticalStep_mem {dist : Point → Point → ℚ} {data : CampusData}
    {tus : List Unit} {m : String → List NavGraphEdge} {x : String}
    {e : NavGraphEdge} :
    e ∈ verticalStep dist data tus m x ↔ e ∈ m x ∨
      ∃ cid ∈ connectorKeys tus,
        ∃ ab ∈ (sortedGroup data tus cid).zip (sortedGroup data tus cid).tail,
          vMatch dist x e ab := by
  rw [verticalStep]
  have go : ∀ (keys : List String) (m0 : String → List NavGraphEdge),
      e ∈ (keys.foldl (fun m0 cid =>
        let sortedUnits := sortByKey (zKey data) (groupFor tus cid)
        (sortedUnits.zip sortedUnits.tail).foldl
          (fun m1 ab =>
            let centerA := getPolygonCenter ab.1.polygon
            let centerB := getPolygonCenter ab.2.polygon
            addEdge m1 ab.1.id ab.2.id
              (dist centerA centerB + VERTICAL_PENALTY) EdgeType.vertical)
          m0) m0) x ↔
      e ∈ m0 x ∨ ∃ cid ∈ keys,
        ∃ ab ∈ (sortedGroup data tus cid).zip (sortedGroup data tus cid).tail,
          vMatch dist x e ab := by
    intro keys
    induction keys with
    | nil => intro m0; simp
    | cons k keys ih =>
        intro m0
        rw [List.foldl_cons, ih]
        rw [show (sortByKey (zKey data) (groupFor tus k)) = sortedGroup data tus k
          from rfl]
        rw [groupFold_mem]
        constructor
        · rintro ((h | ⟨ab, hab, hm⟩) | ⟨cid, hcid, hrest⟩)
          · exact Or.inl h
          · exact Or.inr ⟨k, List.mem_cons_self _ _, ab, hab, hm⟩
          · exact Or.inr ⟨cid, List.mem_cons_of_mem _ hcid, hrest⟩
        · rintro (h | ⟨cid, hcid, hrest⟩)
          · exact Or.inl (Or.inl h)
          · rcases List.mem_cons.mp hcid with rfl | hcid
            · exact Or.inl (Or.inr hrest)
            · exact Or.inr ⟨cid, hcid, hrest⟩
  exact go (connectorKeys tus) m


theorem mem_groupFor {tus : List Unit} {cid : String} {u : Unit}
    (h : u ∈ groupFor tus cid) :
    u ∈ tus ∧ inConnector u = true ∧ u.verticalConnectorId = some cid := by
  rw [groupFor, List.mem_filter] at h
  obtain ⟨h1, h2⟩ := h
  simp only [Bool.and_eq_true, decide_eq_true_eq] at h2
  exact ⟨h1, h2.1, h2.2⟩

theorem mem_groupPair {data : CampusData} {tus : List Unit} {cid : String}
    {ab : Unit × Unit}
    (h : ab ∈ (sortedGroup data tus cid).zip (sortedGroup data tus cid).tail) :
    ab.1 ∈ groupFor tus cid ∧ ab.2 ∈ groupFor tus cid := by
  obtain ⟨h1, h2⟩ := List.of_mem_zip h
  have h2' : ab.2 ∈ sortedGroup data tus cid := (List.tail_sublist _).subset h2
  rw [sortedGroup] at h1 h2'
  exact ⟨mem_sortByKey.mp h1, mem_sortByKey.mp h2'⟩

theorem verticalStep_mono {dist : Point → Point → ℚ} {data : CampusData}
    {tus : List Unit} {m : String → List NavGraphEdge} {x : String}
    {e : NavGraphEdge} (h : e ∈ m x) : e ∈ verticalStep dist data tus m x :=
  verticalStep_mem.mpr (Or.inl h)

theorem EInv.verticalStep_pres {dist : Point → Point → ℚ} {data : CampusData}
    {tus : List Unit} {nodes : List NavGraphNode} {m : String → List NavGraphEdge}
    (inv : EInv dist tus nodes m) (hc : ∀ u ∈ tus, centerNode u ∈ nodes) :
    EInv dist tus nodes (verticalStep dist data tus m) := by
  have endpoints : ∀ {cid : String}, cid ∈ connectorKeys tus →
      ∀ {ab : Unit × Unit},
        ab ∈ (sortedGroup data tus cid).zip (sortedGroup data tus cid).tail →
        ab.1 ∈ tus ∧ ab.2 ∈ tus := by
    intro cid _ ab hab
    obtain ⟨h1, h2⟩ := mem_groupPair hab
    exact ⟨(mem_groupFor h1).1, (mem_groupFor h2).1⟩
  refine ⟨?_, ?_, ?_, ?_⟩
  · intro x e he
    rcases verticalStep_mem.mp he with h | ⟨cid, hcid, ab, hab, hm⟩
    · obtain ⟨h1, h2⟩ := inv.mirror x e h
      exact ⟨h1, verticalStep_mono h2⟩
    · rcases hm with ⟨rfl, rfl⟩ | ⟨rfl, rfl⟩
      · exact ⟨rfl, verticalStep_mem.mpr
          (Or.inr ⟨cid, hcid, ab, hab, Or.inr ⟨rfl, rfl⟩⟩)⟩
      · exact ⟨rfl, verticalStep_mem.mpr
          (Or.inr ⟨cid, hcid, ab, hab, Or.inl ⟨rfl, rfl⟩⟩)⟩
  · intro x e he
    rcases verticalStep_mem.mp he with h | ⟨cid, hcid, ab, hab, hm⟩
    · exact inv.closed x e h
    · obtain ⟨h1, h2⟩ := endpoints hcid hab
      rcases hm with ⟨rfl, rfl⟩ | ⟨rfl, rfl⟩
      · exact ⟨⟨centerNode ab.1, hc _ h1, rfl⟩, ⟨centerNode ab.2, hc _ h2, rfl⟩⟩
      · exact ⟨⟨centerNode ab.2, hc _ h2, rfl⟩, ⟨centerNode ab.1, hc _ h1, rfl⟩⟩
  · intro hd x e he
    rcases verticalStep_mem.mp he with h | ⟨cid, hcid, ab, hab, hm⟩
    · exact inv.wnonneg hd x e h
    · have hw : 0 ≤ vWeight dist ab := by
        have := hd (getPolygonCenter ab.1.polygon) (getPolygonCenter ab.2.polygon)
        have hpen : (0 : ℚ) ≤ VERTICAL_PENALTY := by norm_num [VERTICAL_PENALTY]
        rw [vWeight]
        linarith
      rcases hm with ⟨rfl, rfl⟩ | ⟨rfl, rfl⟩ <;> exact hw
  · intro hids x e he ht
    rcases verticalStep_mem.mp he with h | ⟨cid, hcid, ab, hab, hm⟩
    · exact inv.hLevel hids x e h ht
    · rcases hm with ⟨rfl, rfl⟩ | ⟨rfl, rfl⟩ <;> simp at ht

theorem nearestCandidate_spec {dist : Point → Point → ℚ} {tus : List Unit}
    {isolated : Unit} {d : ℚ} {c : Unit}
    (h : nearestCandidate dist tus isolated = some (d, c)) :
    c ∈ tus ∧ c.levelId = isolated.levelId ∧
      d = dist (getPolygonCenter isolated.polygon) (getPolygonCenter c.polygon) := by
  rw [nearestCandidate] at h
  have key := List.foldlRecOn tus
    (fun best candidate =>
      if candidate.id = isolated.id then best
      else if candidate.levelId ≠ isolated.levelId then best
      else
        let d := dist (getPolygonCenter isolated.polygon)
          (getPolygonCenter candidate.polygon)
        match best with
        | none => some (d, candidate)
        | some b => if d < b.1 then some (d, candidate) else best)
    (motive := fun b => ∀ d0 c0, b = some (d0, c0) → c0 ∈ tus ∧
        c0.levelId = isolated.levelId ∧
        d0 = dist (getPolygonCenter isolated.polygon) (getPolygonCenter c0.polygon))
    (none : Option (ℚ × Unit))
    (by intro d0 c0 hcon; cases hcon)
    (by
      intro b hb cand hcand d0 c0 h0
      dsimp only at h0
      by_cases h1 : cand.id = isolated.id
      · rw [if_pos h1] at h0
        exact hb d0 c0 h0
      · rw [if_neg h1] at h0
        by_cases h2 : cand.levelId ≠ isolated.levelId
        · rw [if_pos h2] at h0
          exact hb d0 c0 h0
        · rw [if_neg h2] at h0
          push_neg at h2
          cases hbv : b with
          | none =>
              rw [hbv] at h0
              simp only [Option.some.injEq, Prod.mk.injEq] at h0
              obtain ⟨hd0, hc0⟩ := h0
              subst hc0
              exact ⟨hcand, h2, hd0.symm⟩
          | some p =>
              rw [hbv] at h0
              dsimp only at h0
              by_cases h3 : dist (getPolygonCenter isolated.polygon)
                  (getPolygonCenter cand.polygon) < p.1
              · rw [if_pos h3] at h0
                simp only [Option.some.injEq, Prod.mk.injEq] at h0
                obtain ⟨hd0, hc0⟩ := h0
                subst hc0
                exact ⟨hcand, h2, hd0.symm⟩
              · rw [if_neg h3] at h0
                exact hb d0 c0 (hbv ▸ h0))
  exact key d c h


/-- `e` is one of the two stored directions of the fallback edge linking
`isolated` to its nearest candidate `(d, c)`, keyed at `x`. -/
def fMatch (x : String) (e : NavGraphEdge) (isolated : Unit) (d : ℚ) (c : Unit) :
    Prop :=
  (x = isolated.id ∧ e = ⟨isolated.id, c.id, d, EdgeType.horizontal⟩) ∨
  (x = c.id ∧ e = ⟨c.id, isolated.id, d, EdgeType.horizontal⟩)

theorem fallbackFold_mem {dist : Point → Point → ℚ} {tus : List Unit}
    {x : String} {e : NavGraphEdge} :
    ∀ (l : List Unit) (m : String → List NavGraphEdge),
      e ∈ (l.foldl (fun m0 isolated =>
        match nearestCandidate dist tus isolated with
        | none => m0
        | some (nearestDist, nearestUnit) =>
            if nearestDist < 5 / 1000 then
              addEdge m0 isolated.id nearestUnit.id nearestDist EdgeType.horizontal
            else m0) m) x ↔
      e ∈ m x ∨ ∃ u ∈ l, ∃ d c, nearestCandidate dist tus u = some (d, c) ∧
        d < 5 / 1000 ∧ fMatch x e u d c := by
  intro l
  induction l with
  | nil => intro m; simp
  | cons a l ih =>
      intro m
      rw [List.foldl_cons, ih]
      have step : e ∈ (match nearestCandidate dist tus a with
          | none => m
          | some (nearestDist, nearestUnit) =>
              if nearestDist < 5 / 1000 then
                addEdge m a.id nearestUnit.id nearestDist EdgeType.horizontal
              else m) x ↔
          e ∈ m x ∨ ∃ d c, nearestCandidate dist tus a = some (d, c) ∧
            d < 5 / 1000 ∧ fMatch x e a d c := by
        cases hnc : nearestCandidate dist tus a with
        | none => simp [hnc]
        | some p =>
            obtain ⟨d0, c0⟩ := p
            dsimp only
            by_cases hlt : d0 < 5 / 1000
            · rw [if_pos hlt, mem_addEdge]
              constructor
              · rintro (h | ⟨rfl, rfl⟩ | ⟨rfl, rfl⟩)
                · exact Or.inl h
                · exact Or.inr ⟨d0, c0, rfl, hlt, Or.inl ⟨rfl, rfl⟩⟩
                · exact Or.inr ⟨d0, c0, rfl, hlt, Or.inr ⟨rfl, rfl⟩⟩
              · rintro (h | ⟨d1, c1, hsome, hlt1, hm⟩)
                · exact Or.inl h
                · obtain ⟨hd, hc⟩ : d1 = d0 ∧ c1 = c0 := by
                    simpa [Prod.ext_iff] using hsome.symm
                  subst hd; subst hc
                  rcases hm with ⟨rfl, rfl⟩ | ⟨rfl, rfl⟩
                  · exact Or.inr (Or.inl ⟨rfl, rfl⟩)
                  · exact Or.inr (Or.inr ⟨rfl, rfl⟩)
            · rw [if_neg hlt]
              constructor
              · exact Or.inl
              · rintro (h | ⟨d1, c1, hsome, hlt1, _⟩)
                · exact h
                · obtain ⟨hd, _⟩ : d0 = d1 ∧ c0 = c1 := by
                    simpa [Prod.ext_iff] using hsome
                  exact absurd (hd ▸ hlt1) hlt
      rw [step]
      constructor
      · rintro ((h | hrest) | ⟨u, hu, hrest⟩)
        · exact Or.inl h
        · exact Or.inr ⟨a, List.mem_cons_self _ _, hrest⟩
        · exact Or.inr ⟨u, List.mem_cons_of_mem _ hu, hrest⟩
      · rintro (h | ⟨u, hu, hrest⟩)
        · exact Or.inl (Or.inl h)
        · rcases List.mem_cons.mp hu with rfl | hu
          · exact Or.inl (Or.inr hrest)
          · exact Or.inr ⟨u, hu, hrest⟩

theorem fallbackStep_mem {dist : Point → Point → ℚ} {tus : List Unit}
    {m : String → List NavGraphEdge} {x : String} {e : NavGraphEdge} :
    e ∈ fallbackStep dist tus m x ↔ e ∈ m x ∨
      ∃ u ∈ tus.filter (fun u => m u.id = []), ∃ d c,
        nearestCandidate dist tus u = some (d, c) ∧ d < 5 / 1000 ∧
        fMatch x e u d c := by
  rw [fallbackStep]
  exact fallbackFold_mem _ m

theorem fallbackStep_mono {dist : Point → Point → ℚ} {tus : List Unit}
    {m : String → List NavGraphEdge} {x : String} {e : NavGraphEdge}
    (h : e ∈ m x) : e ∈ fallbackStep dist tus m x :=
  fallbackStep_mem.mpr (Or.inl h)

theorem EInv.fallbackStep_pres {dist : Point → Point → ℚ} {tus : List Unit}
    {nodes : List NavGraphNode} {m : String → List NavGraphEdge}
    (inv : EInv dist tus nodes m) (hc : ∀ u ∈ tus, centerNode u ∈ nodes) :
    EInv dist tus nodes (fallbackStep dist tus m) := by
  have datum : ∀ {u : Unit}, u ∈ tus.filter (fun u => m u.id = []) →
      ∀ {d : ℚ} {c : Unit}, nearestCandidate dist tus u = some (d, c) →
      u ∈ tus ∧ c ∈ tus ∧ c.levelId = u.levelId ∧
        d = dist (getPolygonCenter u.polygon) (getPolygonCenter c.polygon) := by
    intro u hu d c hnc
    obtain ⟨hc1, hc2, hc3⟩ := nearestCandidate_spec hnc
    exact ⟨(List.mem_filter.mp hu).1, hc1, hc2, hc3⟩
  refine ⟨?_, ?_, ?_, ?_⟩
  · intro x e he
    rcases fallbackStep_mem.mp he with h | ⟨u, hu, d, c, hnc, hlt, hm⟩
    · obtain ⟨h1, h2⟩ := inv.mirror x e h
      exact ⟨h1, fallbackStep_mono h2⟩
    · rcases hm with ⟨rfl, rfl⟩ | ⟨rfl, rfl⟩
      · exact ⟨rfl, fallbackStep_mem.mpr
          (Or.inr ⟨u, hu, d, c, hnc, hlt, Or.inr ⟨rfl, rfl⟩⟩)⟩
      · exact ⟨rfl, fallbackStep_mem.mpr
          (Or.inr ⟨u, hu, d, c, hnc, hlt, Or.inl ⟨rfl, rfl⟩⟩)⟩
  · intro x e he
    rcases fallbackStep_mem.mp he with h | ⟨u, hu, d, c, hnc, hlt, hm⟩
    · exact inv.closed x e h
    · obtain ⟨h1, h2, _, _⟩ := datum hu hnc
      rcases hm with ⟨rfl, rfl⟩ | ⟨rfl, rfl⟩
      · exact ⟨⟨centerNode u, hc _ h1, rfl⟩, ⟨centerNode c, hc _ h2, rfl⟩⟩
      · exact ⟨⟨centerNode c, hc _ h2, rfl⟩, ⟨centerNode u, hc _ h1, rfl⟩⟩
  · intro hd x e he
    rcases fallbackStep_mem.mp he with h | ⟨u, hu, d, c, hnc, hlt, hm⟩
    · exact inv.wnonneg hd x e h
    · obtain ⟨_, _, _, hdd⟩ := datum hu hnc
      have : 0 ≤ d := hdd ▸ hd _ _
      rcases hm with ⟨rfl, rfl⟩ | ⟨rfl, rfl⟩ <;> exact this
  · intro hids x e he ht
    rcases fallbackStep_mem.mp he with h | ⟨u, hu, d, c, hnc, hlt, hm⟩
    · exact inv.hLevel hids x e h ht
    · obtain ⟨h1, h2, hlev, _⟩ := datum hu hnc
      rcases hm with ⟨rfl, rfl⟩ | ⟨rfl, rfl⟩
      · exact ⟨centerNode u, hc _ h1, centerNode c, hc _ h2, rfl, rfl, hlev.symm⟩
      · exact ⟨centerNode c, hc _ h2, centerNode u, hc _ h1, rfl, rfl, hlev⟩


/-! ## Properties of the generated graph -/

/-- The traversable units: everything except RESTRICTED. -/
def travUnits (data : CampusData) : List Unit :=
  data.units.filter (fun u => u.type ≠ UnitType.RESTRICTED)

/-- The build state after the shared-edge pass (STEPS 1–3). -/
def genState (dist : Point → Point → ℚ) (data : CampusData) : BuildState :=
  pairLoop dist (travUnits data) ⟨(travUnits data).map centerNode, fun _ => []⟩

theorem gen_nodes_eq {dist : Point → Point → ℚ} {data : CampusData} :
    (generateNavigationGraph dist data).nodes = (genState dist data).nodes := rfl

theorem gen_edges_eq {dist : Point → Point → ℚ} {data : CampusData} :
    (generateNavigationGraph dist data).edges =
      fallbackStep dist (travUnits data)
        (verticalStep dist data (travUnits data) (genState dist data).edges) := rfl

theorem genState_inv {dist : Point → Point → ℚ} {data : CampusData} :
    BInvU dist (travUnits data) (genState dist data) :=
  BInvU.pairLoop_pres _ _ (fun _ hb => hb) BInvU.initial

theorem gen_EInv {dist : Point → Point → ℚ} {data : CampusData} :
    EInv dist (travUnits data) (generateNavigationGraph dist data).nodes
      (generateNavigationGraph dist data).edges := by
  rw [gen_nodes_eq, gen_edges_eq]
  exact ((genState_inv.toEInv.verticalStep_pres
    genState_inv.centers).fallbackStep_pres genState_inv.centers)

theorem gen_edgesClosed {dist : Point → Point → ℚ} {data : CampusData} :
    EdgesClosed (generateNavigationGraph dist data) := by
  intro x e he
  obtain ⟨h1, _⟩ := gen_EInv.mirror x e he
  obtain ⟨⟨n1, hn1, hid1⟩, ⟨n2, hn2, hid2⟩⟩ := gen_EInv.closed x e he
  exact ⟨h1, hid1 ▸ List.mem_map_of_mem _ hn1, hid2 ▸ List.mem_map_of_mem _ hn2⟩

theorem gen_nonneg {dist : Point → Point → ℚ} {data : CampusData}
    (hd : ∀ p q, 0 ≤ dist p q) :
    NonnegWeights (generateNavigationGraph dist data) :=
  fun x e he => gen_EInv.wnonneg hd x e he

theorem gen_mirror {dist : Point → Point → ℚ} {data : CampusData} {x : String}
    {e : NavGraphEdge} (he : e ∈ (generateNavigationGraph dist data).edges x) :
    mirrorEdge e ∈ (generateNavigationGraph dist data).edges e.to' :=
  (gen_EInv.mirror x e he).2

theorem gen_nodesOk {dist : Point → Point → ℚ} {data : CampusData} {n : NavGraphNode}
    (hn : n ∈ (generateNavigationGraph dist data).nodes) :
    (∃ u ∈ travUnits data, n = centerNode u) ∨
    (n.type = NodeType.waypoint ∧ ∃ a b : Unit, a ∈ travUnits data ∧
      b ∈ travUnits data ∧ a.levelId = b.levelId ∧
      n.id = doorNodeId a.id b.id ∧ n.levelId = a.levelId) :=
  genState_inv.nodesOk n (gen_nodes_eq ▸ hn)

/-- Vertical-edge characterization of the generated graph: the vertical
edges are exactly the consecutive-pair connector edges of STEP 4. -/
theorem gen_vertical_iff {dist : Point → Point → ℚ} {data : CampusData}
    {x : String} {e : NavGraphEdge} :
    (e ∈ (generateNavigationGraph dist data).edges x ∧ e.type = EdgeType.vertical) ↔
      ∃ cid ∈ connectorKeys (travUnits data),
        ∃ ab ∈ (sortedGroup data (travUnits data) cid).zip
            (sortedGroup data (travUnits data) cid).tail,
          vMatch dist x e ab := by
  constructor
  · rintro ⟨he, ht⟩
    rw [gen_edges_eq] at he
    rcases fallbackStep_mem.mp he with h | ⟨u, hu, d, c, hnc, hlt, hm⟩
    · rcases verticalStep_mem.mp h with h | hrest
      · have := genState_inv.noVertical x e h
        rw [this] at ht
        cases ht
      · exact hrest
    · rcases hm with ⟨rfl, rfl⟩ | ⟨rfl, rfl⟩ <;> cases ht
  · rintro ⟨cid, hcid, ab, hab, hm⟩
    have hv : e ∈ verticalStep dist data (travUnits data)
        (genState dist data).edges x :=
      verticalStep_mem.mpr (Or.inr ⟨cid, hcid, ab, hab, hm⟩)
    refine ⟨gen_edges_eq ▸ fallbackStep_mono hv, ?_⟩
    rcases hm with ⟨_, rfl⟩ | ⟨_, rfl⟩ <;> rfl


theorem gen_idsNodup {dist : Point → Point → ℚ} {data : CampusData}
    (h : ((travUnits data).map Unit.id).Nodup) :
    (nodeIds (generateNavigationGraph dist data)).Nodup := by
  have hinv : BInvU dist (travUnits data) (genState dist data) := genState_inv
  have := hinv.idsNodup h
  rw [nodeIds, gen_nodes_eq]
  exact this

/-- With pairwise-distinct node ids, the last-wins map lookup resolves a
member node's id back to that node. -/
theorem lastNode?_resolve {g : NavigationGraph} {n : NavGraphNode}
    (hnd : (nodeIds g).Nodup) (hn : n ∈ g.nodes) :
    lastNode? g n.id = some n := by
  rcases hmem : lastNode? g n.id with _ | m
  · exact absurd (lastNode?_eq_none_iff.mp hmem)
      (fun hni => hni (List.mem_map_of_mem _ hn))
  · obtain ⟨hmmem, hmid⟩ := lastNode?_mem hmem
    have : m = n := by
      have hinj := List.inj_on_of_nodup_map (f := NavGraphNode.id) hnd
      exact hinj hmmem hn hmid
    rw [this]


/-- The accumulated distance is the sum of the per-pair contributions:
`hav` for a same-level consecutive pair, `0` for a level change. -/
theorem calculatePathDistance_eq_sum (hav : Point → Point → ℚ)
    (waypoints : List Waypoint) :
    calculatePathDistance hav waypoints =
      ((waypoints.zip waypoints.tail).map
        (fun ab => if ab.1.levelId = ab.2.levelId
          then hav ab.1.point ab.2.point else 0)).sum := by
  rw [calculatePathDistance]
  have go : ∀ (l : List (Waypoint × Waypoint)) (acc : ℚ),
      l.foldl (fun acc ab =>
        if ab.1.levelId = ab.2.levelId then acc + hav ab.1.point ab.2.point
        else acc) acc =
      acc + (l.map (fun ab => if ab.1.levelId = ab.2.levelId
        then hav ab.1.point ab.2.point else 0)).sum := by
    intro l
    induction l with
    | nil => intro acc; simp
    | cons ab l ih =>
        intro acc
        rw [List.foldl_cons, List.map_cons, List.sum_cons]
        by_cases h : ab.1.levelId = ab.2.levelId
        · rw [if_pos h, if_pos h, ih]
          ring
        · rw [if_neg h, if_neg h, ih]
          ring
  rw [go, zero_add]

/-- Every vertical edge of the generated graph joins two
connector-group units (STAIRS- or ELEVATOR-typed, by construction). -/
theorem gen_vertical_units {dist : Point → Point → ℚ} {data : CampusData}
    {x : String} {e : NavGraphEdge}
    (he : e ∈ (generateNavigationGraph dist data).edges x)
    (ht : e.type = EdgeType.vertical) :
    ∃ a b : Unit, a ∈ travUnits data ∧ b ∈ travUnits data ∧
      inConnector a = true ∧ inConnector b = true ∧
      e.from' = a.id ∧ e.to' = b.id := by
  obtain ⟨cid, hcid, ab, hab, hm⟩ := gen_vertical_iff.mp ⟨he, ht⟩
  obtain ⟨h1, h2⟩ := mem_groupPair hab
  obtain ⟨h1t, h1c, _⟩ := mem_groupFor h1
  obtain ⟨h2t, h2c, _⟩ := mem_groupFor h2
  rcases hm with ⟨_, rfl⟩ | ⟨_, rfl⟩
  · exact ⟨ab.1, ab.2, h1t, h2t, h1c, h2c, rfl, rfl⟩
  · exact ⟨ab.2, ab.1, h2t, h1t, h2c, h1c, rfl, rfl⟩

theorem gen_isStairsAt {dist : Point → Point → ℚ} {data : CampusData}
    (hnd : ((travUnits data).map Unit.id).Nodup) {u : Unit}
    (hu : u ∈ travUnits data) :
    isStairsAt (generateNavigationGraph dist data) u.id =
      (u.type = UnitType.STAIRS : Bool) := by
  have hc : centerNode u ∈ (generateNavigationGraph dist data).nodes := by
    rw [gen_nodes_eq]
    exact genState_inv.centers u hu
  have hres : lastNode? (generateNavigationGraph dist data) u.id =
      some (centerNode u) :=
    lastNode?_resolve (gen_idsNodup hnd) hc
  rw [isStairsAt, hres]
  simp [centerNode]

/-- An accepted vertical edge under `ELEVATOR_ONLY` has ELEVATOR-typed
units at both endpoints (graphs with distinct unit ids). -/
theorem gen_accept_vertical_elevator {dist : Point → Point → ℚ}
    {data : CampusData} (hnd : ((travUnits data).map Unit.id).Nodup)
    {x : String} {e : NavGraphEdge}
    (he : e ∈ (generateNavigationGraph dist data).edges x)
    (ht : e.type = EdgeType.vertical)
    (ha : acceptEdge (generateNavigationGraph dist data)
      AccessibilityFilter.ELEVATOR_ONLY e = true) :
    ∃ a b : Unit, a ∈ travUnits data ∧ b ∈ travUnits data ∧
      a.type = UnitType.ELEVATOR ∧ b.type = UnitType.ELEVATOR ∧
      e.from' = a.id ∧ e.to' = b.id := by
  obtain ⟨a, b, hat, hbt, hac, hbc, hfrom, hto⟩ := gen_vertical_units he ht
  have hs1 : isStairsAt (generateNavigationGraph dist data) e.from' = false := by
    by_contra hc
    rw [Bool.not_eq_false] at hc
    rw [acceptEdge] at ha
    simp [hc, ht] at ha
  have hs2 : isStairsAt (generateNavigationGraph dist data) e.to' = false := by
    by_contra hc
    rw [Bool.not_eq_false] at hc
    rw [acceptEdge] at ha
    simp [hc, ht] at ha
  rw [hfrom, gen_isStairsAt hnd hat] at hs1
  rw [hto, gen_isStairsAt hnd hbt] at hs2
  simp only [decide_eq_false_iff_not] at hs1 hs2
  rw [inConnector] at hac hbc
  simp only [Bool.and_eq_true, Bool.or_eq_true, decide_eq_true_eq] at hac hbc
  have hae : a.type = UnitType.ELEVATOR := by
    rcases hac.1 with h | h
    · exact absurd h hs1
    · exact h
  have hbe : b.type = UnitType.ELEVATOR := by
    rcases hbc.1 with h | h
    · exact absurd h hs2
    · exact h
  exact ⟨a, b, hat, hbt, hae, hbe, hfrom, hto⟩


/-! ## Walk reversal and inversion lemmas -/

theorem acceptEdge_mirror (g : NavigationGraph) (f : AccessibilityFilter)
    (e : NavGraphEdge) :
    acceptEdge g f (mirrorEdge e) = acceptEdge g f e := by
  rw [acceptEdge, acceptEdge, mirrorEdge]
  dsimp only
  rw [Bool.or_comm]

theorem walkWeight_reverse_map (es : List NavGraphEdge) :
    walkWeight (es.reverse.map mirrorEdge) = walkWeight es := by
  rw [walkWeight, walkWeight, List.map_map, List.map_reverse, List.sum_reverse]
  congr 1

theorem AccWalk.reverse {g : NavigationGraph} {acc : NavGraphEdge → Bool}
    (hc : EdgesClosed g)
    (hm : ∀ x e, e ∈ g.edges x → mirrorEdge e ∈ g.edges e.to')
    (ha : ∀ e, acc (mirrorEdge e) = acc e) {u v : String} {es : List NavGraphEdge}
    (h : AccWalk g acc u v es) :
    AccWalk g acc v u (es.reverse.map mirrorEdge) := by
  induction h with
  | nil u => exact SWalk.nil u
  | @cons a b w e es _ he hacc ht _ ih =>
      rw [List.reverse_cons, List.map_append, List.map_cons, List.map_nil]
      have hfrom : e.from' = a := (hc a e he).1
      have hmem : mirrorEdge e ∈ g.edges b := ht ▸ hm a e he
      have hto : (mirrorEdge e).to' = a := by rw [mirrorEdge]; exact hfrom
      have := (ih.snoc (e := mirrorEdge e) trivial hmem (by rw [ha]; exact hacc))
      rw [hto] at this
      exact this

theorem ListLinks_singleton {g : NavigationGraph} {acc : NavGraphEdge → Bool}
    {u : String} {es : List NavGraphEdge} (h : ListLinks g acc [u] es) :
    es = [] := by
  cases h
  rfl

theorem AccWalk_nil_inv {g : NavigationGraph} {acc : NavGraphEdge → Bool}
    {u v : String} (h : AccWalk g acc u v []) : u = v := by
  cases h
  rfl

theorem ListLinks.mem_edges {g : NavigationGraph} {acc : NavGraphEdge → Bool}
    {l : List String} {es : List NavGraphEdge} (h : ListLinks g acc l es) :
    ∀ ed ∈ es, (∃ x, ed ∈ g.edges x) ∧ acc ed = true := by
  induction h with
  | single u => intro ed hed; cases hed
  | @cons a b rest e es' he hacc _ _ ih =>
      intro ed hed
      rcases List.mem_cons.mp hed with rfl | hed
      · exact ⟨⟨a, he⟩, hacc⟩
      · exact ih ed hed

theorem getPath_none_of_missing {g : NavigationGraph} {s e : String}
    {f : AccessibilityFilter} (h : s ∉ nodeIds g ∨ e ∉ nodeIds g) :
    getPath g s e f = none := by
  by_cases h1 : s = "" ∨ e = ""
  · rw [getPath, if_pos h1]
  · rw [getPath, if_neg h1, if_pos ?_]
    rcases h with h | h
    · exact Or.inl (by rw [Option.isNone_iff_eq_none, lastNode?_eq_none_iff]; exact h)
    · exact Or.inr (by rw [Option.isNone_iff_eq_none, lastNode?_eq_none_iff]; exact h)

theorem Reach.symm_of_mirror {g : NavigationGraph} {acc : NavGraphEdge → Bool}
    (hc : EdgesClosed g)
    (hm : ∀ x e, e ∈ g.edges x → mirrorEdge e ∈ g.edges e.to')
    (ha : ∀ e, acc (mirrorEdge e) = acc e) {u v : String}
    (h : Reach g acc u v) : Reach g acc v u := by
  obtain ⟨es, hw⟩ := h
  exact ⟨_, hw.reverse hc hm ha⟩


/-! ## Concrete fixtures

`qdist` is the L1 metric; every pair of points the fixtures feed to it is
axis-aligned (equal `y` or equal `x`), where L1 and the Euclidean metric
of the source coincide, so each fixture graph is exactly the graph the
source builds. -/

def qdist (p q : Point) : ℚ := |p.x - q.x| + |p.y - q.y|

theorem qdist_nonneg : ∀ p q, 0 ≤ qdist p q :=
  fun _ _ => add_nonneg (abs_nonneg _) (abs_nonneg _)

/-- An axis-aligned 4×4 square with lower-left corner `(x0, y0)`. -/
def sqPoly (x0 y0 : ℚ) : Polygon :=
  [⟨x0, y0⟩, ⟨x0 + 4, y0⟩, ⟨x0 + 4, y0 + 4⟩, ⟨x0, y0 + 4⟩]

/-- Four corridor squares in a row; the third unit's id is the empty
string, which is falsy in JS. -/
def D1data : CampusData :=
  ⟨[⟨"u", UnitType.CORRIDOR, "L", sqPoly 0 0, none, none⟩,
    ⟨"a", UnitType.CORRIDOR, "L", sqPoly 4 0, none, none⟩,
    ⟨"", UnitType.CORRIDOR, "L", sqPoly 8 0, none, none⟩,
    ⟨"v", UnitType.CORRIDOR, "L", sqPoly 12 0, none, none⟩],
   [⟨"L", 0⟩]⟩

def gD1 : NavigationGraph := generateNavigationGraph qdist D1data

/-- Two adjacent corridor squares: the healthy two-node fixture. -/
def H2data : CampusData :=
  ⟨[⟨"a", UnitType.CORRIDOR, "L", sqPoly 0 0, none, none⟩,
    ⟨"b", UnitType.CORRIDOR, "L", sqPoly 4 0, none, none⟩],
   [⟨"L", 0⟩]⟩

def gH2 : NavigationGraph := generateNavigationGraph qdist H2data

/-- A classroom and a corridor (doorway waypoint pair), plus a RESTRICTED
unit whose id collides with the generated doorway waypoint id. -/
def F5data : CampusData :=
  ⟨[⟨"a", UnitType.CLASSROOM, "L", sqPoly 0 0, none, none⟩,
    ⟨"b", UnitType.CORRIDOR, "L", sqPoly 4 0, none, none⟩,
    ⟨"door-a--b", UnitType.RESTRICTED, "L", sqPoly 100 0, none, none⟩],
   [⟨"L", 0⟩]⟩

def gF5 : NavigationGraph := generateNavigationGraph qdist F5data

/-- Two doorway pairs on different levels whose generated waypoint ids
collide: `doorNodeId "a" "b--c" = doorNodeId "a--b" "c"`. -/
def F10data : CampusData :=
  ⟨[⟨"a", UnitType.CLASSROOM, "L1", sqPoly 0 0, none, none⟩,
    ⟨"b--c", UnitType.CORRIDOR, "L1", sqPoly 4 0, none, none⟩,
    ⟨"a--b", UnitType.CLASSROOM, "L2", sqPoly 0 10, none, none⟩,
    ⟨"c", UnitType.CORRIDOR, "L2", sqPoly 4 10, none, none⟩],
   [⟨"L1", 0⟩, ⟨"L2", 1⟩]⟩

def gF10 : NavigationGraph := generateNavigationGraph qdist F10data

/-- A classroom and a corridor (doorway waypoint pair), ids unambiguous. -/
def FDdata : CampusData :=
  ⟨[⟨"a", UnitType.CLASSROOM, "L", sqPoly 0 0, none, none⟩,
    ⟨"b", UnitType.CORRIDOR, "L", sqPoly 4 0, none, none⟩],
   [⟨"L", 0⟩]⟩

/-- A corridor plus a RESTRICTED unit with an ordinary id. -/
def W5data : CampusData :=
  ⟨[⟨"a", UnitType.CORRIDOR, "L", sqPoly 0 0, none, none⟩,
    ⟨"r", UnitType.RESTRICTED, "L", sqPoly 100 0, none, none⟩],
   [⟨"L", 0⟩]⟩

def rUnit : Unit := ⟨"r", UnitType.RESTRICTED, "L", sqPoly 100 0, none, none⟩

/-- Two triangles sharing a degenerate reversed edge of length
`EPSILON / 2`. -/
def P71 : Polygon := [⟨0, 0⟩, ⟨1 / 2000000, 0⟩, ⟨1, 1⟩]

def P72 : Polygon := [⟨1 / 2000000, 0⟩, ⟨0, 0⟩, ⟨-1, -1⟩]

/-- Two triangles that touch at exactly the vertex `(4, 4)`. -/
def T71 : Polygon := [⟨0, 0⟩, ⟨4, 0⟩, ⟨4, 4⟩]

def T72 : Polygon := [⟨4, 4⟩, ⟨8, 4⟩, ⟨8, 8⟩]

set_option maxRecDepth 10000

theorem gD1_path_uv : getPath gD1 "u" "v" AccessibilityFilter.NONE = some ["v"] := by
  decide

theorem gD1_path_vu :
    getPath gD1 "v" "u" AccessibilityFilter.NONE = some ["a", "u"] := by
  decide

theorem gD1_edges_u : gD1.edges "u" = [⟨"u", "a", 4, EdgeType.horizontal⟩] := by
  decide

theorem gD1_edges_a :
    gD1.edges "a" = [⟨"a", "u", 4, EdgeType.horizontal⟩,
      ⟨"a", "", 4, EdgeType.horizontal⟩] := by
  decide

theorem gH2_path_ab :
    getPath gH2 "a" "b" AccessibilityFilter.NONE = some ["a", "b"] := by
  decide

theorem gH2_path_ba :
    getPath gH2 "b" "a" AccessibilityFilter.NONE = some ["b", "a"] := by
  decide

theorem gH2_path_ab_elev :
    getPath gH2 "a" "b" AccessibilityFilter.ELEVATOR_ONLY = some ["a", "b"] := by
  decide


theorem gD1_edges_empty :
    gD1.edges "" = [⟨"", "a", 4, EdgeType.horizontal⟩,
      ⟨"", "v", 4, EdgeType.horizontal⟩] := by
  decide

theorem AccWalk_cons_of_ne {g : NavigationGraph} {acc : NavGraphEdge → Bool}
    {u v : String} {es : List NavGraphEdge} (h : AccWalk g acc u v es)
    (hne : u ≠ v) :
    ∃ e es', es = e :: es' ∧ e ∈ g.edges u ∧ acc e = true ∧
      AccWalk g acc e.to' v es' := by
  cases h with
  | nil => exact absurd rfl hne
  | cons _ he ha ht hrest => exact ⟨_, _, rfl, he, ha, ht ▸ hrest⟩

/-! ## The claims -/

/-- C1 (amended): on a graph with closed adjacency, nonnegative weights
and no empty-string node id, a non-null `getPath` result is realized by
an accepted edge list that attains the minimum total weight over all
filter-accepted walks from `startId` to `endId`. -/
theorem spec_C1 {g : NavigationGraph} {s e : String} {f : AccessibilityFilter}
    {l : List String} (hClosed : EdgesClosed g) (hNonneg : NonnegWeights g)
    (hids : "" ∉ nodeIds g) (h : getPath g s e f = some l) :
    ∃ es, ListLinks g (acceptEdge g f) l es ∧
      AccWalk g (acceptEdge g f) s e es ∧
      ∀ es', AccWalk g (acceptEdge g f) s e es' →
        walkWeight es ≤ walkWeight es' := by
  obtain ⟨_, _, es, h1, h2, h3⟩ := getPath_some_opt hClosed hNonneg hids h
  exact ⟨es, h1, h2, h3⟩

theorem spec_C1_witness :
    ∃ es, ListLinks gH2 (acceptEdge gH2 AccessibilityFilter.NONE) ["a", "b"] es ∧
      AccWalk gH2 (acceptEdge gH2 AccessibilityFilter.NONE) "a" "b" es ∧
      ∀ es', AccWalk gH2 (acceptEdge gH2 AccessibilityFilter.NONE) "a" "b" es' →
        walkWeight es ≤ walkWeight es' :=
  spec_C1 gen_edgesClosed (gen_nonneg qdist_nonneg) (by decide) gH2_path_ab

/-- C1 counterexample: in `gD1` (a four-corridor chain whose third unit
id is the empty string), `getPath "u" "v"` returns the one-node path
`["v"]`, whose only edge realization weighs `0`, while `"v"` is reachable
from `"u"` and every accepted walk from `"u"` to `"v"` weighs at least
`4`: the returned path does not realize the minimum. -/
theorem ce_C1 :
    getPath gD1 "u" "v" AccessibilityFilter.NONE = some ["v"] ∧
    (∀ es, ListLinks gD1 (acceptEdge gD1 AccessibilityFilter.NONE) ["v"] es →
      walkWeight es = 0) ∧
    Reach gD1 (acceptEdge gD1 AccessibilityFilter.NONE) "u" "v" ∧
    ∀ es, AccWalk gD1 (acceptEdge gD1 AccessibilityFilter.NONE) "u" "v" es →
      4 ≤ walkWeight es := by
  refine ⟨gD1_path_uv, ?_, ?_, ?_⟩
  · intro es h
    rw [ListLinks_singleton h]
    rfl
  · refine ⟨[⟨"u", "a", 4, EdgeType.horizontal⟩,
      ⟨"a", "", 4, EdgeType.horizontal⟩,
      ⟨"", "v", 4, EdgeType.horizontal⟩], ?_⟩
    refine SWalk.cons trivial ?_ (by decide) rfl
      (SWalk.cons trivial ?_ (by decide) rfl
        (SWalk.cons trivial ?_ (by decide) rfl (SWalk.nil "v")))
    · rw [gD1_edges_u]; exact List.mem_singleton_self _
    · rw [gD1_edges_a]; exact List.mem_cons_of_mem _ (List.mem_singleton_self _)
    · rw [gD1_edges_empty]
      exact List.mem_cons_of_mem _ (List.mem_singleton_self _)
  · intro es h
    obtain ⟨e, es', rfl, he, _, hrest⟩ := AccWalk_cons_of_ne h (by decide)
    rw [gD1_edges_u] at he
    rcases List.mem_singleton.mp he with rfl
    have hnn : 0 ≤ walkWeight es' :=
      hrest.weight_nonneg (gen_nonneg qdist_nonneg)
    rw [walkWeight_cons]
    dsimp only
    linarith

/-- C2 (amended): on a graph with closed adjacency, nonnegative weights
and no empty-string node id, `getPath` returns `null` exactly when an
endpoint id is missing or the destination is unreachable through
filter-accepted edges, and every non-null path starts at `startId` and
ends at `endId`. -/
theorem spec_C2 {g : NavigationGraph} {s e : String} {f : AccessibilityFilter}
    (hClosed : EdgesClosed g) (hNonneg : NonnegWeights g)
    (hids : "" ∉ nodeIds g) :
    (getPath g s e f = none ↔
      s ∉ nodeIds g ∨ e ∉ nodeIds g ∨ ¬ Reach g (acceptEdge g f) s e) ∧
    ∀ l, getPath g s e f = some l → l.head? = some s ∧ l.getLast? = some e := by
  refine ⟨getPath_none_iff hClosed hNonneg hids, ?_⟩
  intro l h
  obtain ⟨h1, h2, _⟩ := getPath_some_opt hClosed hNonneg hids h
  exact ⟨h1, h2⟩

theorem spec_C2_witness :
    (["a", "b"] : List String).head? = some "a" ∧
    (["a", "b"] : List String).getLast? = some "b" :=
  (spec_C2 gen_edgesClosed (gen_nonneg qdist_nonneg) (by decide)).2
    ["a", "b"] gH2_path_ab

/-- C2 counterexample: in `gD1` both `"u"` and `"v"` are node ids and
`getPath "u" "v"` is non-null, yet the returned path `["v"]` does not
have `"u"` as its first element (the backtrack stops at the falsy
empty-string predecessor, and this `getPath` has no `path[0] === startId`
check). -/
theorem ce_C2 :
    "u" ∈ nodeIds gD1 ∧ "v" ∈ nodeIds gD1 ∧
    getPath gD1 "u" "v" AccessibilityFilter.NONE = some ["v"] ∧
    (["v"] : List String).head? ≠ some "u" :=
  ⟨by decide, by decide, gD1_path_uv, by decide⟩

/-- C4 (amended): the builder stores edges symmetrically (each entry's
mirror is stored under its target), and on a generated graph without the
falsy empty-string node id `getPath` is null in one direction exactly
when it is null in the other, with the two returned paths realized by
accepted walks of equal total weight. -/
theorem spec_C4 {dist : Point → Point → ℚ} {data : CampusData}
    (hd : ∀ p q, 0 ≤ dist p q)
    (hids : "" ∉ nodeIds (generateNavigationGraph dist data))
    (f : AccessibilityFilter) (u v : String) :
    (∀ x ed, ed ∈ (generateNavigationGraph dist data).edges x →
      mirrorEdge ed ∈ (generateNavigationGraph dist data).edges ed.to') ∧
    (getPath (generateNavigationGraph dist data) u v f = none ↔
      getPath (generateNavigationGraph dist data) v u f = none) ∧
    ∀ l l', getPath (generateNavigationGraph dist data) u v f = some l →
      getPath (generateNavigationGraph dist data) v u f = some l' →
      ∃ es es',
        ListLinks (generateNavigationGraph dist data)
          (acceptEdge (generateNavigationGraph dist data) f) l es ∧
        AccWalk (generateNavigationGraph dist data)
          (acceptEdge (generateNavigationGraph dist data) f) u v es ∧
        ListLinks (generateNavigationGraph dist data)
          (acceptEdge (generateNavigationGraph dist data) f) l' es' ∧
        AccWalk (generateNavigationGraph dist data)
          (acceptEdge (generateNavigationGraph dist data) f) v u es' ∧
        walkWeight es = walkWeight es' := by
  have hc : EdgesClosed (generateNavigationGraph dist data) := gen_edgesClosed
  have hn : NonnegWeights (generateNavigationGraph dist data) := gen_nonneg hd
  have hm : ∀ x ed, ed ∈ (generateNavigationGraph dist data).edges x →
      mirrorEdge ed ∈ (generateNavigationGraph dist data).edges ed.to' :=
    fun x ed hed => gen_mirror hed
  have hsym : ∀ a b : String,
      ¬ Reach (generateNavigationGraph dist data)
          (acceptEdge (generateNavigationGraph dist data) f) a b →
      ¬ Reach (generateNavigationGraph dist data)
          (acceptEdge (generateNavigationGraph dist data) f) b a :=
    fun a b hno hr =>
      hno (hr.symm_of_mirror hc hm (acceptEdge_mirror _ f))
  refine ⟨hm, ?_, ?_⟩
  · rw [getPath_none_iff hc hn hids, getPath_none_iff hc hn hids]
    constructor
    · rintro (h | h | h)
      · exact Or.inr (Or.inl h)
      · exact Or.inl h
      · exact Or.inr (Or.inr (hsym u v h))
    · rintro (h | h | h)
      · exact Or.inr (Or.inl h)
      · exact Or.inl h
      · exact Or.inr (Or.inr (hsym v u h))
  · intro l l' h h'
    obtain ⟨_, _, es, hl1, hw1, hmin1⟩ := getPath_some_opt hc hn hids h
    obtain ⟨_, _, es', hl2, hw2, hmin2⟩ := getPath_some_opt hc hn hids h'
    refine ⟨es, es', hl1, hw1, hl2, hw2, le_antisymm ?_ ?_⟩
    · have := hmin1 _ (hw2.reverse hc hm (acceptEdge_mirror _ f))
      rwa [walkWeight_reverse_map] at this
    · have := hmin2 _ (hw1.reverse hc hm (acceptEdge_mirror _ f))
      rwa [walkWeight_reverse_map] at this

theorem spec_C4_witness :
    (getPath gH2 "a" "b" AccessibilityFilter.NONE = none ↔
      getPath gH2 "b" "a" AccessibilityFilter.NONE = none) ∧
    ∃ es es',
      ListLinks gH2 (acceptEdge gH2 AccessibilityFilter.NONE) ["a", "b"] es ∧
      AccWalk gH2 (acceptEdge gH2 AccessibilityFilter.NONE) "a" "b" es ∧
      ListLinks gH2 (acceptEdge gH2 AccessibilityFilter.NONE) ["b", "a"] es' ∧
      AccWalk gH2 (acceptEdge gH2 AccessibilityFilter.NONE) "b" "a" es' ∧
      walkWeight es = walkWeight es' :=
  ⟨(spec_C4 qdist_nonneg (by decide) AccessibilityFilter.NONE "a" "b").2.1,
   (spec_C4 qdist_nonneg (by decide) AccessibilityFilter.NONE "a" "b").2.2
     ["a", "b"] ["b", "a"] gH2_path_ab gH2_path_ba⟩

/-- C4 counterexample: in `gD1` the two directions both return paths,
but every edge realization of `getPath "u" "v" = ["v"]` weighs `0` while
every realization of `getPath "v" "u" = ["a", "u"]` weighs `4`: the two
returned paths do not report equal total weight. -/
theorem ce_C4 :
    getPath gD1 "u" "v" AccessibilityFilter.NONE = some ["v"] ∧
    getPath gD1 "v" "u" AccessibilityFilter.NONE = some ["a", "u"] ∧
    ∀ es es',
      ListLinks gD1 (acceptEdge gD1 AccessibilityFilter.NONE) ["v"] es →
      ListLinks gD1 (acceptEdge gD1 AccessibilityFilter.NONE) ["a", "u"] es' →
      walkWeight es ≠ walkWeight es' := by
  refine ⟨gD1_path_uv, gD1_path_vu, ?_⟩
  intro es es' h1 h2
  rw [ListLinks_singleton h1]
  cases h2 with
  | cons he ha ht hrest =>
      rename_i e es''
      rw [ListLinks_singleton hrest]
      rw [gD1_edges_a] at he
      rcases List.mem_cons.mp he with rfl | he2
      · rw [walkWeight_nil, walkWeight_cons, walkWeight_nil]
        norm_num
      · rcases List.mem_singleton.mp he2 with rfl
        exact absurd ht (by decide)


/-- C3: under the `ELEVATOR_ONLY` filter (and pairwise-distinct unit
ids), every returned path is realized by accepted edges, and every
vertical edge in any accepted realization has ELEVATOR-typed units at
both endpoints — in particular never a STAIRS unit. -/
theorem spec_C3 {dist : Point → Point → ℚ} {data : CampusData} {s e : String}
    {l : List String} (hd : ∀ p q, 0 ≤ dist p q)
    (hnd : ((travUnits data).map Unit.id).Nodup)
    (h : getPath (generateNavigationGraph dist data) s e
      AccessibilityFilter.ELEVATOR_ONLY = some l) :
    (∃ es, ListLinks (generateNavigationGraph dist data)
      (acceptEdge (generateNavigationGraph dist data)
        AccessibilityFilter.ELEVATOR_ONLY) l es) ∧
    ∀ es, ListLinks (generateNavigationGraph dist data)
      (acceptEdge (generateNavigationGraph dist data)
        AccessibilityFilter.ELEVATOR_ONLY) l es →
      ∀ ed ∈ es, ed.type = EdgeType.vertical →
        ∃ a b : Unit, a ∈ travUnits data ∧ b ∈ travUnits data ∧
          a.type = UnitType.ELEVATOR ∧ b.type = UnitType.ELEVATOR ∧
          ed.from' = a.id ∧ ed.to' = b.id := by
  have hc : EdgesClosed (generateNavigationGraph dist data) := gen_edgesClosed
  have hn : NonnegWeights (generateNavigationGraph dist data) := gen_nonneg hd
  constructor
  · obtain ⟨_, _, es, hlinks⟩ := getPath_some_linked hc hn h
    exact ⟨es, hlinks⟩
  · intro es hlinks ed hed ht
    obtain ⟨⟨x, hx⟩, hacc⟩ := hlinks.mem_edges ed hed
    exact gen_accept_vertical_elevator hnd hx ht hacc

theorem spec_C3_witness :
    ∃ es, ListLinks gH2 (acceptEdge gH2 AccessibilityFilter.ELEVATOR_ONLY)
      ["a", "b"] es :=
  (spec_C3 qdist_nonneg (by decide) gH2_path_ab_elev).1

/-- C5 (amended): a RESTRICTED unit whose id collides neither with a
traversable unit id nor with a generated doorway waypoint id is not a
node of the built graph, and `getPath` from or to it returns `null`.
(The unamended claim fails when the RESTRICTED id collides with a
generated doorway id.) -/
theorem spec_C5 {dist : Point → Point → ℚ} {data : CampusData} {r : Unit}
    (hr : r ∈ data.units) (hR : r.type = UnitType.RESTRICTED)
    (hne : ∀ u ∈ travUnits data, u.id ≠ r.id)
    (hdoor : ∀ a ∈ travUnits data, ∀ b ∈ travUnits data,
      r.id ≠ doorNodeId a.id b.id) :
    r.id ∉ nodeIds (generateNavigationGraph dist data) ∧
    ∀ e f, getPath (generateNavigationGraph dist data) r.id e f = none ∧
      getPath (generateNavigationGraph dist data) e r.id f = none := by
  have hnot : r.id ∉ nodeIds (generateNavigationGraph dist data) := by
    intro hmem
    obtain ⟨n, hn, hid⟩ := List.mem_map.mp hmem
    rcases gen_nodesOk hn with ⟨u, hu, rfl⟩ | ⟨_, a, b, ha, hb, _, hdid, _⟩
    · exact hne u hu hid
    · exact hdoor a ha b hb (hid ▸ hdid)
  exact ⟨hnot, fun e f =>
    ⟨getPath_none_of_missing (Or.inl hnot),
     getPath_none_of_missing (Or.inr hnot)⟩⟩

theorem spec_C5_witness :
    rUnit.id ∉ nodeIds (generateNavigationGraph qdist W5data) ∧
    getPath (generateNavigationGraph qdist W5data) rUnit.id "a"
      AccessibilityFilter.NONE = none :=
  ⟨(spec_C5 (by decide) (by decide) (by decide) (by decide)).1,
   ((@spec_C5 qdist W5data rUnit
      (by decide) (by decide) (by decide) (by decide)).2 "a"
      AccessibilityFilter.NONE).1⟩

/-- C5 counterexample: in `F5data` the RESTRICTED unit has id
`"door-a--b"`, which collides with the doorway waypoint the builder
generates for the adjacent pair `"a"`, `"b"`; the id is a node of the
graph and `getPath` from it is non-null. -/
theorem ce_C5 :
    (∃ u ∈ F5data.units, u.type = UnitType.RESTRICTED ∧ u.id = "door-a--b") ∧
    "door-a--b" ∈ nodeIds gF5 ∧
    getPath gF5 "door-a--b" "a" AccessibilityFilter.NONE =
      some ["door-a--b", "a"] := by
  refine ⟨⟨⟨"door-a--b", UnitType.RESTRICTED, "L", sqPoly 100 0, none, none⟩,
    by decide, by decide, rfl⟩, by decide, by decide⟩

/-- C6: the vertical edges of a generated graph are exactly the edges
linking consecutive members of each zIndex-sorted vertical-connector
group (in either stored direction), each weighing the centroid distance
plus the strictly positive penalty `VERTICAL_PENALTY = 0.002`. -/
theorem spec_C6 (dist : Point → Point → ℚ) (data : CampusData) (x : String)
    (e : NavGraphEdge) :
    ((e ∈ (generateNavigationGraph dist data).edges x ∧
        e.type = EdgeType.vertical) ↔
      ∃ cid ∈ connectorKeys (travUnits data),
        ∃ ab ∈ (sortedGroup data (travUnits data) cid).zip
            (sortedGroup data (travUnits data) cid).tail,
          vMatch dist x e ab) ∧
    0 < VERTICAL_PENALTY :=
  ⟨gen_vertical_iff, by norm_num [VERTICAL_PENALTY]⟩

/-- C8: the doorway waypoint id is symmetric in the unit pair (it is
built from the sorted pair of ids), and no two waypoint nodes of a
generated graph share an id. -/
theorem spec_C8 (dist : Point → Point → ℚ) (data : CampusData) :
    (∀ a b : String, doorNodeId a b = doorNodeId b a) ∧
    (generateNavigationGraph dist data).nodes.Pairwise
      (fun m n => m.type = NodeType.waypoint → n.type = NodeType.waypoint →
        m.id ≠ n.id) := by
  constructor
  · intro a b
    rw [doorNodeId, doorNodeId]
    by_cases h1 : String.le a b <;> by_cases h2 : String.le b a
    · rw [if_pos h1, if_pos h2]
      have hab : a = b := String.lt_antisymm h2 h1
      subst hab
      rfl
    · rw [if_pos h1, if_neg h2]
    · rw [if_neg h1, if_pos h2]
    · exact absurd (String.lt_trans (not_not.mp h1) (not_not.mp h2))
        (String.lt_irrefl b)
  · rw [gen_nodes_eq]
    exact genState_inv.wayIds

/-- C9: `calculatePathDistance` is the sum over consecutive waypoint
pairs of the haversine distance when the pair shares a level and of an
exact `0` contribution when the levels differ. -/
theorem spec_C9 (hav : Point → Point → ℚ) (waypoints : List Waypoint) :
    calculatePathDistance hav waypoints =
      ((waypoints.zip waypoints.tail).map
        (fun ab => if ab.1.levelId = ab.2.levelId
          then hav ab.1.point ab.2.point else 0)).sum :=
  calculatePathDistance_eq_sum hav waypoints


/-- The farthest-pair scan's recorded distance matches its recorded
pair. -/
def FarOk (b : ℚ × Option (Point × Point)) : Prop :=
  ∀ x y, b.2 = some (x, y) → sqDist x y = b.1

theorem farthestAux_spec {p : Point} {rest : List Point}
    {best : ℚ × Option (Point × Point)} (h : FarOk best) :
    FarOk (farthestAux p rest best) := by
  rw [farthestAux]
  induction rest generalizing best with
  | nil => exact h
  | cons q rest ih =>
      rw [List.foldl_cons]
      refine ih ?_
      by_cases hgt : sqDist p q > best.1
      · rw [if_pos hgt]
        intro x y hxy
        simp only [Option.some.injEq, Prod.mk.injEq] at hxy
        obtain ⟨rfl, rfl⟩ := hxy
        rfl
      · rw [if_neg hgt]
        exact h

theorem farthestPairGo_spec :
    ∀ (l : List Point) (best : ℚ × Option (Point × Point)), FarOk best →
      FarOk (farthestPairGo l best)
  | [], _, h => h
  | p :: rest, best, h =>
      farthestPairGo_spec rest (farthestAux p rest best) (farthestAux_spec h)

/-- Any segment produced by one edge-pair check is either the first
polygon's edge verbatim (the reversed fast path) or a pair of overlap
points strictly more than `EPSILON` apart. -/
theorem checkEdgePair_sq {p1 p2 q1 q2 : Point} {seg : Point × Point}
    (h : checkEdgePair p1 p2 q1 q2 = some seg) :
    seg = (p1, p2) ∨ EPSILON ^ 2 < sqDist seg.1 seg.2 := by
  rw [checkEdgePair] at h
  by_cases hfast : (closePoints p1 q2 && closePoints p2 q1) = true
  · rw [if_pos hfast] at h
    exact Or.inl (Option.some.injEq _ _ ▸ h.symm)
  · rw [if_neg hfast] at h
    by_cases hcol : (areCollinear p1 p2 q1 && areCollinear p1 p2 q2) = true
    · rw [if_pos hcol] at h
      dsimp only at h
      by_cases hlen :
          (dedupPoints
            ((if isPointOnSegment p1 q1 q2 then [p1] else []) ++
              (if isPointOnSegment p2 q1 q2 then [p2] else []) ++
              (if isPointOnSegment q1 p1 p2 then [q1] else []) ++
              (if isPointOnSegment q2 p1 p2 then [q2] else []))).length ≥ 2
      · rw [if_pos hlen] at h
        rcases hfar : farthestPairGo
            (dedupPoints
              ((if isPointOnSegment p1 q1 q2 then [p1] else []) ++
                (if isPointOnSegment p2 q1 q2 then [p2] else []) ++
                (if isPointOnSegment q1 p1 p2 then [q1] else []) ++
                (if isPointOnSegment q2 p1 p2 then [q2] else [])))
            (-1, none) with ⟨maxDistSq, pOpt⟩
        rw [hfar] at h
        have hok : FarOk (maxDistSq, pOpt) := by
          rw [← hfar]
          exact farthestPairGo_spec _ _ (by intro x y hxy; cases hxy)
        cases pOpt with
        | none => cases h
        | some pr =>
            obtain ⟨pStart, pEnd⟩ := pr
            dsimp only at h
            by_cases hgt : maxDistSq > EPSILON ^ 2
            · rw [if_pos hgt] at h
              have hseg : seg = (pStart, pEnd) :=
                (Option.some.injEq _ _ ▸ h.symm)
              subst hseg
              refine Or.inr ?_
              rw [hok pStart pEnd rfl]
              exact hgt
            · rw [if_neg hgt] at h
              cases h
      · rw [if_neg hlen] at h
        cases h
    · rw [if_neg hcol] at h
      cases h

/-- C7 (amended): provided the first polygon has no edge of length at
most `EPSILON`, every segment `findSharedEdge` returns has its two
endpoints strictly more than `EPSILON` apart (stated via squared
distances, as the square-root comparisons are modelled). -/
theorem spec_C7 {poly1 poly2 : Polygon} {seg : Point × Point}
    (hlong : ∀ pe ∈ edgesOf poly1, EPSILON ^ 2 < sqDist pe.1 pe.2)
    (h : findSharedEdge poly1 poly2 = some seg) :
    EPSILON ^ 2 < sqDist seg.1 seg.2 := by
  rw [findSharedEdge] at h
  obtain ⟨pe, hpe, hinner⟩ := List.exists_of_findSome?_eq_some h
  obtain ⟨qe, _, hcheck⟩ := List.exists_of_findSome?_eq_some hinner
  rcases checkEdgePair_sq hcheck with hseg | hgt
  · rw [hseg]
    exact hlong pe hpe
  · exact hgt

theorem spec_C7_witness : EPSILON ^ 2 < sqDist (⟨4, 0⟩ : Point) ⟨4, 4⟩ :=
  @spec_C7 (sqPoly 0 0) (sqPoly 4 0) (⟨4, 0⟩, ⟨4, 4⟩) (by decide) (by decide)

/-- C7 counterexample: `P71` and `P72` share only a degenerate reversed
edge of length `EPSILON / 2`: the fast path returns it without any
length check, so the returned segment's endpoints are *not* more than
`EPSILON` apart (and the polygons only touch within `EPSILON` of a
single point, which the claim says must yield `null`). -/
theorem ce_C7 :
    findSharedEdge P71 P72 = some (⟨0, 0⟩, ⟨1 / 2000000, 0⟩) ∧
    sqDist (⟨0, 0⟩ : Point) ⟨1 / 2000000, 0⟩ ≤ EPSILON ^ 2 :=
  ⟨by decide, by decide⟩

/-- C10 (amended): when the doorway-id scheme is unambiguous
(`DoorIdsOk`), every horizontal edge of the generated graph joins two
nodes on a common level, and every waypoint node carries the common
level of its two adjacent units.  (Without `DoorIdsOk`, colliding
doorway ids let a later pair on another level attach to the earlier
waypoint.) -/
theorem spec_C10 {dist : Point → Point → ℚ} {data : CampusData}
    (hids : DoorIdsOk (travUnits data)) :
    (∀ x e, e ∈ (generateNavigationGraph dist data).edges x →
      e.type = EdgeType.horizontal →
      ∃ n1 ∈ (generateNavigationGraph dist data).nodes,
        ∃ n2 ∈ (generateNavigationGraph dist data).nodes,
          n1.id = e.from' ∧ n2.id = e.to' ∧ n1.levelId = n2.levelId) ∧
    ∀ n ∈ (generateNavigationGraph dist data).nodes,
      n.type = NodeType.waypoint →
      ∃ a b : Unit, a ∈ travUnits data ∧ b ∈ travUnits data ∧
        a.levelId = b.levelId ∧ n.id = doorNodeId a.id b.id ∧
        n.levelId = a.levelId := by
  constructor
  · exact fun x e he ht => gen_EInv.hLevel hids x e he ht
  · intro n hn hw
    rcases gen_nodesOk hn with ⟨u, _, rfl⟩ | ⟨_, a, b, ha, hb, hlev, hid, hlv⟩
    · exact absurd hw (by simp [centerNode])
    · exact ⟨a, b, ha, hb, hlev, hid, hlv⟩

theorem spec_C10_witness :
    (∀ x e, e ∈ (generateNavigationGraph qdist FDdata).edges x →
      e.type = EdgeType.horizontal →
      ∃ n1 ∈ (generateNavigationGraph qdist FDdata).nodes,
        ∃ n2 ∈ (generateNavigationGraph qdist FDdata).nodes,
          n1.id = e.from' ∧ n2.id = e.to' ∧ n1.levelId = n2.levelId) ∧
    ∀ n ∈ (generateNavigationGraph qdist FDdata).nodes,
      n.type = NodeType.waypoint →
      ∃ a b : Unit, a ∈ travUnits FDdata ∧ b ∈ travUnits FDdata ∧
        a.levelId = b.levelId ∧ n.id = doorNodeId a.id b.id ∧
        n.levelId = a.levelId :=
  spec_C10 (by unfold DoorIdsOk; decide)

/-- C10 counterexample: in `gF10` the doorway ids of the level-1 pair
`("a", "b--c")` and the level-2 pair `("a--b", "c")` collide, so the
builder attaches the level-2 unit `"a--b"` to the level-1 waypoint with
a `horizontal` edge whose endpoints lie on different levels. -/
theorem ce_C10 :
    (⟨"a--b", "door-a--b--c", 2, EdgeType.horizontal⟩ : NavGraphEdge) ∈
      gF10.edges "a--b" ∧
    ∀ n1 ∈ gF10.nodes, ∀ n2 ∈ gF10.nodes,
      n1.id = "a--b" → n2.id = "door-a--b--c" → n1.levelId ≠ n2.levelId :=
  ⟨by decide, by decide⟩

end IndoorNav
